import Mathlib

/-!
Verification of the distributed BSP shortest-path engine.

The development shallowly embeds the C++ sources:
* `Graph`, `Graph.addEdge`, `Graph.setNodeCount`, `Graph.loadFromFile` — the
  graph container (Graph.h);
* `rrGo` / `getRoundRobinPartition` — Partitioner::getRoundRobinPartition;
* `relaxAdj`, `relaxPartition`, `superstep`, `bspLoop`, `runEngine` — the
  Bellman-Ford style relaxation loop of main.cpp, with the MPI collectives
  (`MPI_Allreduce MIN` over the distance arrays, `MPI_Allreduce MAX` over the
  changed flags, the final `MPI_Reduce SUM`/`MAX` over statistics) embedded as
  pure reductions over the per-worker results of one lock-step superstep.

IEEE doubles are modelled by exact rationals; `+Infinity` is the `⊤` of
`WithTop ℚ`, matching the source's use of `numeric_limits<double>::infinity()`
(the inputs of interest never produce NaNs, and `inf + w = inf`,
`¬(inf < x)` agree with the `WithTop` arithmetic used here).
-/

namespace DistSSSP

/-- Distance values: IEEE doubles in the source, modelled as `WithTop ℚ`
with `⊤` playing the role of `+Infinity`. -/
abbrev Dist := WithTop ℚ

/-- Edge of Graph.h: `struct Edge { int destination; double weight; }`.
Destinations are stored only after the `addEdge` bounds check, hence as `ℕ`. -/
structure Edge where
  destination : ℕ
  weight : ℚ
deriving DecidableEq

/-- Graph of Graph.h: `nodes` (adjacency list per node), `nodeCount`,
`edgeCount`. Node ids and coordinates are never read by the engine and are
omitted. -/
structure Graph where
  nodeCount : ℕ
  adj : List (List Edge)
  edgeCount : ℕ
deriving DecidableEq

/-- The default-constructed `Graph graph;` of main.cpp (numNodes = 0). -/
def Graph.empty : Graph := ⟨0, [], 0⟩

/-- `std::vector::resize` on the node vector: keep a prefix, pad with
default nodes (empty adjacency lists). -/
def resizeAdj (l : List (List Edge)) (n : ℕ) : List (List Edge) :=
  l.take n ++ List.replicate (n - l.length) []

/-- Graph::setNodeCount. -/
def Graph.setNodeCount (g : Graph) (n : ℕ) : Graph :=
  ⟨n, resizeAdj g.adj n, g.edgeCount⟩

/-- Graph::addEdge: bounds-checked insertion; an out-of-range endpoint is
silently ignored. Endpoints are C++ `int`s, hence `Int` here. -/
def Graph.addEdge (g : Graph) (f t : Int) (w : ℚ) : Graph :=
  if 0 ≤ f ∧ f < (g.nodeCount : Int) ∧ 0 ≤ t ∧ t < (g.nodeCount : Int) then
    ⟨g.nodeCount,
     g.adj.set f.toNat ((g.adj.getD f.toNat []) ++ [⟨t.toNat, w⟩]),
     g.edgeCount + 1⟩
  else g

/-- Graph::getAdjacencyList (total version; the engine only queries nodes of
its partition, which are in range). -/
def Graph.getAdjacencyList (g : Graph) (u : ℕ) : List Edge :=
  g.adj.getD u []

/-- Structural well-formedness of a graph value: the node vector has
`nodeCount` entries and every stored destination is in range (guaranteed by
`addEdge` for graphs built through the loader). -/
def Graph.WF (g : Graph) : Prop :=
  g.adj.length = g.nodeCount ∧
  ∀ u < g.nodeCount, ∀ e ∈ g.getAdjacencyList u, e.destination < g.nodeCount

/-- Non-negative edge weights, the hypothesis of every distance claim. -/
def Graph.Nonneg (g : Graph) : Prop :=
  ∀ u < g.nodeCount, ∀ e ∈ g.getAdjacencyList u, 0 ≤ e.weight

instance (g : Graph) : Decidable g.WF := by
  unfold Graph.WF; infer_instance

instance (g : Graph) : Decidable g.Nonneg := by
  unfold Graph.Nonneg; infer_instance

/-- Loop body of Partitioner::getRoundRobinPartition:
`for (node = myRank; node < nodeCount; node += totalProcesses)`.
The loop is bounded by structural fuel; fuel `n` is enough for any positive
stride, so the wrapper below is extensionally the C++ loop whenever
`totalProcesses ≥ 1` (at stride 0 the C++ loop diverges and is out of model).
-/
def rrGo (P n : ℕ) : ℕ → ℕ → List ℕ
  | 0, _ => []
  | fuel + 1, node => if node < n then node :: rrGo P n fuel (node + P) else []

/-- Partitioner::getRoundRobinPartition. -/
def getRoundRobinPartition (g : Graph) (rank P : ℕ) : List ℕ :=
  rrGo P g.nodeCount g.nodeCount rank

/-- Partitioner::getNodeOwnerRoundRobin. -/
def getNodeOwnerRoundRobin (nodeId P : ℕ) : ℕ := nodeId % P

/-- Read of `distances[v]` made total (`⊤` outside the vector; all reads of
the relaxation loop are in range for well-formed graphs). -/
def dget (d : List Dist) (v : ℕ) : Dist := d.getD v ⊤

/-- Result of one worker's local relaxation pass: its distance copy, its
`localChanged` flag and its running statistics counters. -/
structure RelaxResult where
  distances : List Dist
  changed : Bool
  edgesRelaxed : ℕ
  localUpdates : ℕ
deriving DecidableEq

/-- Inner loop of main.cpp: `for (const Edge& e : graph.getAdjacencyList(u))`.
`distances[u]` is re-read at every edge, exactly as in the source. -/
def relaxAdj (u : ℕ) : List Edge → RelaxResult → RelaxResult
  | [], st => st
  | e :: rest, st =>
    let newDist := dget st.distances u + (e.weight : Dist)
    let st' : RelaxResult :=
      ⟨st.distances, st.changed, st.edgesRelaxed + 1, st.localUpdates⟩
    if newDist < dget st.distances e.destination then
      relaxAdj u rest
        ⟨st'.distances.set e.destination newDist, true,
         st'.edgesRelaxed, st'.localUpdates + 1⟩
    else
      relaxAdj u rest st'

/-- Outer loop of main.cpp: `for (int u : myPartition)` with the
`distances[u] == infinity` skip. -/
def relaxPartition (g : Graph) : List ℕ → RelaxResult → RelaxResult
  | [], st => st
  | u :: rest, st =>
    if dget st.distances u = ⊤ then relaxPartition g rest st
    else relaxPartition g rest (relaxAdj u (g.getAdjacencyList u) st)

/-- Per-worker statistics, living across supersteps in each process. -/
structure WorkerStats where
  iterationsCompleted : ℕ
  edgesRelaxed : ℕ
  localUpdates : ℕ
deriving DecidableEq

/-- Global engine state after a synchronization point: the shared distance
array plus every worker's counters. -/
structure EngineState where
  distances : List Dist
  workers : List WorkerStats
deriving DecidableEq

/-- One worker's share of a superstep: local relaxation over its round-robin
partition starting from the shared array, plus its statistics update
(`iterationsCompleted++` at the top of the loop body). -/
def stepWorker (g : Graph) (P r : ℕ) (d : List Dist) (w : WorkerStats) :
    RelaxResult × WorkerStats :=
  let res := relaxPartition g (getRoundRobinPartition g r P)
    ⟨d, false, w.edgesRelaxed, w.localUpdates⟩
  (res, ⟨w.iterationsCompleted + 1, res.edgesRelaxed, res.localUpdates⟩)

/-- `MPI_Allreduce(..., MPI_MIN, ...)` over the workers' distance arrays:
element-wise minimum of the participating buffers. -/
def allreduceMin : List (List Dist) → List Dist
  | [] => []
  | l :: rest => rest.foldl (fun acc x => List.zipWith min acc x) l

/-- One superstep of the collective loop: every worker relaxes its partition
from the shared array, then the arrays are min-reduced and the integer
`changed` flags are max-reduced. Returns the new state and the global flag. -/
def superstep (g : Graph) (P : ℕ) (s : EngineState) : EngineState × ℕ :=
  let pairs := (List.range P).map fun r =>
    stepWorker g P r s.distances (s.workers.getD r ⟨0, 0, 0⟩)
  let newDist := allreduceMin (pairs.map fun pr => pr.1.distances)
  let globalFlag := (pairs.map fun pr => if pr.1.changed then 1 else 0).foldl max 0
  (⟨newDist, pairs.map fun pr => pr.2⟩, globalFlag)

/-- One worker's initial distance array: all `+∞`, then `distances[source]=0`
iff the source lies in this worker's partition (`myNodes.count(source)`). -/
def initLocal (g : Graph) (P r source : ℕ) : List Dist :=
  if source ∈ getRoundRobinPartition g r P then
    (List.replicate g.nodeCount (⊤ : Dist)).set source 0
  else
    List.replicate g.nodeCount (⊤ : Dist)

/-- The initial `MPI_Allreduce MIN` that establishes the shared state. -/
def initGlobal (g : Graph) (P source : ℕ) : List Dist :=
  allreduceMin ((List.range P).map fun r => initLocal g P r source)

/-- Engine state right after initialization. -/
def initState (g : Graph) (P source : ℕ) : EngineState :=
  ⟨initGlobal g P source, List.replicate P ⟨0, 0, 0⟩⟩

/-- The relaxation loop: up to `fuel` supersteps, breaking as soon as the
max-reduced flag is 0. The boolean records whether the loop exited through
the convergence break (`true`) or by exhausting the iteration cap. -/
def bspLoop (g : Graph) (P : ℕ) : EngineState → ℕ → EngineState × Bool
  | s, 0 => (s, false)
  | s, fuel + 1 =>
    let step := superstep g P s
    if step.2 = 0 then (step.1, true) else bspLoop g P step.1 fuel

/-- The whole engine run of main.cpp: initialization followed by the loop
with `maxIterations = nodeCount`. -/
def runEngine (g : Graph) (P source : ℕ) : EngineState × Bool :=
  bspLoop g P (initState g P source) g.nodeCount

/-- `MPI_Reduce(&iterationsCompleted, ..., MPI_MAX, 0, ...)`. -/
def reportedIterations (s : EngineState) : ℕ :=
  (s.workers.map fun w => w.iterationsCompleted).foldl max 0

/-- `MPI_Reduce(&edgesRelaxed, ..., MPI_SUM, 0, ...)`. -/
def totalEdgesRelaxed (s : EngineState) : ℕ :=
  (s.workers.map fun w => w.edgesRelaxed).sum

/-- `MPI_Reduce(&localUpdates, ..., MPI_SUM, 0, ...)`. -/
def totalLocalUpdates (s : EngineState) : ℕ :=
  (s.workers.map fun w => w.localUpdates).sum

/-- rank 0's read `distances[destination]` when printing the report, made
total: `none` is the out-of-bounds branch. -/
def finalDistanceRead (g : Graph) (P source destination : ℕ) : Option Dist :=
  (runEngine g P source).1.distances.get? destination

/-- The `Distance:` line of rank 0's report. The value is printed
unconditionally; C++ stream output renders the IEEE infinity as `inf`
(rational rendering stands in for finite double formatting). -/
def distanceLine (d : Dist) : String :=
  "  Distance: " ++ (if d = ⊤ then "inf" else toString (d.untop' 0))

/-! ### Basic facts about `dget`, `List.set`, `zipWith min` and the folds -/

@[simp]
theorem dget_nil (v : ℕ) : dget [] v = ⊤ := rfl

@[simp]
theorem dget_cons_zero (a : Dist) (l : List Dist) : dget (a :: l) 0 = a := rfl

@[simp]
theorem dget_cons_succ (a : Dist) (l : List Dist) (v : ℕ) :
    dget (a :: l) (v + 1) = dget l v := rfl

theorem dget_replicate (n v : ℕ) : dget (List.replicate n (⊤ : Dist)) v = ⊤ := by
  induction n generalizing v with
  | zero => rfl
  | succ n ih =>
    cases v with
    | zero => rfl
    | succ v => simpa [List.replicate] using ih v

theorem dget_set (d : List Dist) (i j : ℕ) (a : Dist) :
    dget (d.set i a) j = if i = j ∧ j < d.length then a else dget d j := by
  induction d generalizing i j with
  | nil => simp [List.set]
  | cons b l ih =>
    cases i with
    | zero =>
      cases j with
      | zero => simp
      | succ j => simp
    | succ i =>
      cases j with
      | zero => simp
      | succ j => simpa using ih i j

theorem dget_top_of_le_length (d : List Dist) (v : ℕ) (h : d.length ≤ v) :
    dget d v = ⊤ := by
  induction d generalizing v with
  | nil => rfl
  | cons a l ih =>
    cases v with
    | zero => simp at h
    | succ v => simpa using ih v (by simpa using h)

theorem dget_zipWith_min (a : List Dist) :
    ∀ (b : List Dist), a.length = b.length →
      ∀ v, dget (List.zipWith min a b) v = min (dget a v) (dget b v) := by
  induction a with
  | nil =>
    intro b hb v
    cases b with
    | nil => simp
    | cons x xs => simp at hb
  | cons x xs ih =>
    intro b hb v
    cases b with
    | nil => simp at hb
    | cons y ys =>
      cases v with
      | zero => simp
      | succ v => simpa using ih ys (by simpa using hb) v

theorem list_eq_of_dget (d₁ d₂ : List Dist) (hl : d₁.length = d₂.length)
    (h : ∀ v, dget d₁ v = dget d₂ v) : d₁ = d₂ := by
  induction d₁ generalizing d₂ with
  | nil =>
    cases d₂ with
    | nil => rfl
    | cons y ys => simp at hl
  | cons x xs ih =>
    cases d₂ with
    | nil => simp at hl
    | cons y ys =>
      have h0 := h 0
      simp at h0
      subst h0
      have := ih ys (by simpa using hl) (fun v => by simpa using h (v + 1))
      rw [this]

/-- The inner fold of `allreduceMin`: length, lower bound and attainment. -/
theorem foldMin_spec (L : ℕ) (rest : List (List Dist)) :
    ∀ (acc : List Dist), acc.length = L → (∀ l ∈ rest, l.length = L) →
      (rest.foldl (fun a x => List.zipWith min a x) acc).length = L ∧
      (∀ v, dget (rest.foldl (fun a x => List.zipWith min a x) acc) v ≤ dget acc v ∧
        ∀ l ∈ rest, dget (rest.foldl (fun a x => List.zipWith min a x) acc) v ≤ dget l v) ∧
      (∀ v, dget (rest.foldl (fun a x => List.zipWith min a x) acc) v = dget acc v ∨
        ∃ l ∈ rest, dget (rest.foldl (fun a x => List.zipWith min a x) acc) v = dget l v) := by
  induction rest with
  | nil =>
    intro acc hacc _
    refine ⟨hacc, fun v => ⟨le_refl _, by simp⟩, fun v => Or.inl rfl⟩
  | cons x rest ih =>
    intro acc hacc hlen
    have hx : x.length = L := hlen x (by simp)
    have hacc' : (List.zipWith min acc x).length = L := by
      rw [List.length_zipWith, hacc, hx, min_self]
    have hrest : ∀ l ∈ rest, l.length = L := fun l hl => hlen l (by simp [hl])
    obtain ⟨h1, h2, h3⟩ := ih (List.zipWith min acc x) hacc' hrest
    have hzip : ∀ v, dget (List.zipWith min acc x) v = min (dget acc v) (dget x v) :=
      dget_zipWith_min acc x (by rw [hacc, hx])
    refine ⟨h1, fun v => ?_, fun v => ?_⟩
    · obtain ⟨ha, hb⟩ := h2 v
      rw [hzip v] at ha
      refine ⟨le_trans ha (min_le_left _ _), ?_⟩
      intro l hl
      rcases List.mem_cons.mp hl with h | h
      · subst h; exact le_trans ha (min_le_right _ _)
      · exact hb l h
    · rcases h3 v with h | ⟨l, hl, h⟩
      · rw [hzip v] at h
        rcases min_cases (dget acc v) (dget x v) with ⟨hc, _⟩ | ⟨hc, _⟩
        · exact Or.inl (h.trans hc)
        · exact Or.inr ⟨x, by simp, h.trans hc⟩
      · exact Or.inr ⟨l, by simp [hl], h⟩

theorem allreduceMin_length (ls : List (List Dist)) (L : ℕ) (hne : ls ≠ [])
    (hlen : ∀ l ∈ ls, l.length = L) : (allreduceMin ls).length = L := by
  cases ls with
  | nil => exact absurd rfl hne
  | cons a rest =>
    exact (foldMin_spec L rest a (hlen a (by simp))
      (fun l hl => hlen l (by simp [hl]))).1

theorem allreduceMin_le (ls : List (List Dist)) (L : ℕ)
    (hlen : ∀ l ∈ ls, l.length = L) :
    ∀ l ∈ ls, ∀ v, dget (allreduceMin ls) v ≤ dget l v := by
  cases ls with
  | nil => simp
  | cons a rest =>
    intro l hl v
    obtain ⟨_, h2, _⟩ := foldMin_spec L rest a (hlen a (by simp))
      (fun l hl => hlen l (by simp [hl]))
    rcases List.mem_cons.mp hl with h | h
    · subst h; exact (h2 v).1
    · exact (h2 v).2 l h

theorem allreduceMin_attained (ls : List (List Dist)) (L : ℕ) (hne : ls ≠ [])
    (hlen : ∀ l ∈ ls, l.length = L) :
    ∀ v, ∃ l ∈ ls, dget (allreduceMin ls) v = dget l v := by
  cases ls with
  | nil => exact absurd rfl hne
  | cons a rest =>
    intro v
    obtain ⟨_, _, h3⟩ := foldMin_spec L rest a (hlen a (by simp))
      (fun l hl => hlen l (by simp [hl]))
    rcases h3 v with h | ⟨l, hl, h⟩
    · exact ⟨a, by simp, h⟩
    · exact ⟨l, by simp [hl], h⟩

theorem foldl_max_eq_zero (l : List ℕ) :
    ∀ a, l.foldl max a = 0 ↔ a = 0 ∧ ∀ x ∈ l, x = 0 := by
  induction l with
  | nil => simp
  | cons x xs ih =>
    intro a
    constructor
    · intro h
      obtain ⟨hax, hxs⟩ := (ih (max a x)).mp (by simpa using h)
      have ha : a = 0 ∧ x = 0 := by
        constructor <;> omega
      exact ⟨ha.1, fun y hy => by
        rcases List.mem_cons.mp hy with h' | h'
        · subst h'; exact ha.2
        · exact hxs y h'⟩
    · rintro ⟨ha, hall⟩
      have hx : x = 0 := hall x (by simp)
      subst ha; subst hx
      exact (ih 0).mpr ⟨rfl, fun y hy => hall y (by simp [hy])⟩

theorem foldl_max_const (l : List ℕ) (j : ℕ) :
    ∀ a, (∀ x ∈ l, x = j) → l ≠ [] → l.foldl max a = max a j := by
  induction l with
  | nil => intro a _ h; exact absurd rfl h
  | cons x xs ih =>
    intro a hall _
    have hx : x = j := hall x (by simp)
    subst hx
    cases xs with
    | nil => simp
    | cons y ys =>
      rw [List.foldl_cons, ih (max a x) (fun z hz => hall z (by simp [hz]))
        (by simp), max_assoc, max_self]

/-! ### Round-robin partition: membership characterization (C2) -/

theorem mem_rrGo (P n : ℕ) (hP : 0 < P) :
    ∀ (fuel node x : ℕ), n ≤ node + fuel * P →
      (x ∈ rrGo P n fuel node ↔ x < n ∧ node ≤ x ∧ (x - node) % P = 0) := by
  intro fuel
  induction fuel with
  | zero =>
    intro node x hfuel
    simp only [rrGo, List.not_mem_nil, false_iff]
    rintro ⟨hx, hnx, _⟩
    omega
  | succ fuel ih =>
    intro node x hfuel
    simp only [rrGo]
    have hmul : (fuel + 1) * P = fuel * P + P := Nat.succ_mul _ _
    by_cases hn : node < n
    · simp only [if_pos hn, List.mem_cons]
      have hrec := ih (node + P) x (by omega)
      constructor
      · rintro (rfl | hm)
        · exact ⟨hn, le_refl _, by simp⟩
        · obtain ⟨h1, h2, h3⟩ := hrec.mp hm
          refine ⟨h1, by omega, ?_⟩
          have : x - node = (x - (node + P)) + P := by omega
          rw [this, Nat.add_mod_right]
          exact h3
      · rintro ⟨h1, h2, h3⟩
        by_cases hx : x = node
        · exact Or.inl hx
        · right
          refine hrec.mpr ⟨h1, ?_, ?_⟩
          · have hdvd : P ∣ (x - node) := Nat.dvd_of_mod_eq_zero h3
            have hpos : 0 < x - node := by omega
            have := Nat.le_of_dvd hpos hdvd
            omega
          · have hge : node + P ≤ x := by
              have hdvd : P ∣ (x - node) := Nat.dvd_of_mod_eq_zero h3
              have hpos : 0 < x - node := by omega
              have := Nat.le_of_dvd hpos hdvd
              omega
            have : x - (node + P) = (x - node) - P := by omega
            rw [this]
            obtain ⟨c, hc⟩ := Nat.dvd_of_mod_eq_zero h3
            rcases c with _ | c
            · simp at hc; omega
            · have hmc : P * (c + 1) = P * c + P := by ring
              have hxc : x - node - P = P * c := by omega
              rw [hxc, Nat.mul_mod_right]
    · simp only [if_neg hn, List.not_mem_nil, false_iff]
      rintro ⟨hx, hnx, _⟩
      omega

theorem mem_getRoundRobinPartition (g : Graph) (rank P x : ℕ) (hP : 0 < P)
    (hrank : rank < P) :
    x ∈ getRoundRobinPartition g rank P ↔ x < g.nodeCount ∧ x % P = rank := by
  have hfuel : g.nodeCount ≤ rank + g.nodeCount * P :=
    le_trans (Nat.le_mul_of_pos_right _ hP) (Nat.le_add_left _ _)
  rw [getRoundRobinPartition, mem_rrGo P g.nodeCount hP g.nodeCount rank x hfuel]
  constructor
  · rintro ⟨h1, h2, h3⟩
    refine ⟨h1, ?_⟩
    obtain ⟨c, hc⟩ := Nat.dvd_of_mod_eq_zero h3
    have hx : x = rank + P * c := by omega
    rw [hx, Nat.add_mul_mod_self_left, Nat.mod_eq_of_lt hrank]
  · rintro ⟨h1, h2⟩
    have hle : rank ≤ x := by
      have := Nat.mod_le x P
      omega
    refine ⟨h1, hle, ?_⟩
    have hx : x = P * (x / P) + rank := by
      conv_lhs => rw [← Nat.div_add_mod x P, h2]
    have : x - rank = P * (x / P) := by omega
    rw [this, Nat.mul_mod_right]

theorem mem_rrGo_lt (P n : ℕ) :
    ∀ (fuel node x : ℕ), x ∈ rrGo P n fuel node → x < n := by
  intro fuel
  induction fuel with
  | zero => intro node x hx; simp [rrGo] at hx
  | succ fuel ih =>
    intro node x hx
    simp only [rrGo] at hx
    by_cases hn : node < n
    · rw [if_pos hn, List.mem_cons] at hx
      rcases hx with rfl | hx
      · exact hn
      · exact ih _ x hx
    · rw [if_neg hn] at hx
      simp at hx

theorem mem_partition_lt (g : Graph) (rank P x : ℕ)
    (hx : x ∈ getRoundRobinPartition g rank P) : x < g.nodeCount :=
  mem_rrGo_lt P g.nodeCount g.nodeCount rank x hx

/-! ### Local relaxation: lengths, monotonicity, per-edge bound, flags -/

theorem relaxAdj_cons (u : ℕ) (e : Edge) (rest : List Edge) (st : RelaxResult) :
    relaxAdj u (e :: rest) st =
      if dget st.distances u + (e.weight : Dist) < dget st.distances e.destination then
        relaxAdj u rest
          ⟨st.distances.set e.destination (dget st.distances u + (e.weight : Dist)),
           true, st.edgesRelaxed + 1, st.localUpdates + 1⟩
      else
        relaxAdj u rest ⟨st.distances, st.changed, st.edgesRelaxed + 1, st.localUpdates⟩ :=
  rfl

theorem relaxPartition_cons (g : Graph) (u : ℕ) (rest : List ℕ) (st : RelaxResult) :
    relaxPartition g (u :: rest) st =
      if dget st.distances u = ⊤ then relaxPartition g rest st
      else relaxPartition g rest (relaxAdj u (g.getAdjacencyList u) st) :=
  rfl

theorem relaxAdj_length (u : ℕ) (es : List Edge) :
    ∀ st : RelaxResult, (relaxAdj u es st).distances.length = st.distances.length := by
  induction es with
  | nil => intro st; rfl
  | cons e rest ih =>
    intro st
    rw [relaxAdj_cons]
    split
    · rw [ih]; simp
    · rw [ih]

theorem dget_set_le (d : List Dist) (i v : ℕ) (a : Dist) (ha : a ≤ dget d i) :
    dget (d.set i a) v ≤ dget d v := by
  rw [dget_set]
  split
  · next h => exact h.1 ▸ ha
  · exact le_refl _

theorem relaxAdj_dget_le (u : ℕ) (es : List Edge) :
    ∀ (st : RelaxResult) (v : ℕ),
      dget (relaxAdj u es st).distances v ≤ dget st.distances v := by
  induction es with
  | nil => intro st v; exact le_refl _
  | cons e rest ih =>
    intro st v
    rw [relaxAdj_cons]
    split
    · next h =>
      exact le_trans (ih _ v) (dget_set_le _ _ _ _ (le_of_lt h))
    · exact ih _ v

theorem relaxAdj_le_edge (u : ℕ) (es : List Edge) :
    ∀ (st : RelaxResult) (e : Edge), e ∈ es →
      e.destination < st.distances.length →
      dget (relaxAdj u es st).distances e.destination ≤
        dget st.distances u + (e.weight : Dist) := by
  induction es with
  | nil => intro st e he; simp at he
  | cons f rest ih =>
    intro st e he hlen
    rw [relaxAdj_cons]
    rcases List.mem_cons.mp he with rfl | hmem
    · split
      · next h =>
        refine le_trans (relaxAdj_dget_le _ _ _ _) ?_
        rw [dget_set]
        rw [if_pos ⟨rfl, hlen⟩]
      · next h =>
        exact le_trans (relaxAdj_dget_le _ _ _ _) (not_lt.mp h)
    · split
      · next h =>
        have hstep : dget (st.distances.set f.destination
            (dget st.distances u + (f.weight : Dist))) u ≤ dget st.distances u :=
          dget_set_le _ _ _ _ (le_of_lt h)
        refine le_trans (ih _ e hmem (by simpa using hlen)) ?_
        exact add_le_add_right hstep _
      · exact ih _ e hmem hlen

theorem relaxAdj_changed_true (u : ℕ) (es : List Edge) :
    ∀ st : RelaxResult, st.changed = true → (relaxAdj u es st).changed = true := by
  induction es with
  | nil => intro st h; exact h
  | cons e rest ih =>
    intro st h
    rw [relaxAdj_cons]
    split
    · exact ih _ rfl
    · exact ih _ h

theorem relaxAdj_changed_false (u : ℕ) (es : List Edge) :
    ∀ st : RelaxResult, (relaxAdj u es st).changed = false →
      st.changed = false ∧ (relaxAdj u es st).distances = st.distances ∧
      ∀ e ∈ es, ¬(dget st.distances u + (e.weight : Dist) <
        dget st.distances e.destination) := by
  induction es with
  | nil => intro st h; exact ⟨h, rfl, by simp⟩
  | cons e rest ih =>
    intro st h
    rw [relaxAdj_cons] at h ⊢
    split at h
    · next hc =>
      have := relaxAdj_changed_true u rest
        ⟨st.distances.set e.destination (dget st.distances u + (e.weight : Dist)),
         true, st.edgesRelaxed + 1, st.localUpdates + 1⟩ rfl
      rw [this] at h
      cases h
    · next hc =>
      obtain ⟨h1, h2, h3⟩ := ih _ h
      rw [if_neg hc]
      exact ⟨h1, h2, fun f hf => by
        rcases List.mem_cons.mp hf with rfl | hmem
        · exact hc
        · exact h3 f hmem⟩

theorem relaxPartition_length (g : Graph) (part : List ℕ) :
    ∀ st : RelaxResult, (relaxPartition g part st).distances.length =
      st.distances.length := by
  induction part with
  | nil => intro st; rfl
  | cons u rest ih =>
    intro st
    rw [relaxPartition_cons]
    split
    · exact ih st
    · rw [ih _, relaxAdj_length]

theorem relaxPartition_dget_le (g : Graph) (part : List ℕ) :
    ∀ (st : RelaxResult) (v : ℕ),
      dget (relaxPartition g part st).distances v ≤ dget st.distances v := by
  induction part with
  | nil => intro st v; exact le_refl _
  | cons u rest ih =>
    intro st v
    rw [relaxPartition_cons]
    split
    · exact ih st v
    · exact le_trans (ih _ v) (relaxAdj_dget_le _ _ _ v)

theorem relaxPartition_le_edge (g : Graph) (part : List ℕ) :
    ∀ (st : RelaxResult) (u : ℕ) (e : Edge), u ∈ part →
      e ∈ g.getAdjacencyList u → e.destination < st.distances.length →
      dget (relaxPartition g part st).distances e.destination ≤
        dget st.distances u + (e.weight : Dist) := by
  induction part with
  | nil => intro st u e hu; simp at hu
  | cons a rest ih =>
    intro st u e hu he hlen
    rw [relaxPartition_cons]
    rcases List.mem_cons.mp hu with rfl | hmem
    · split
      · next htop =>
        rw [htop, WithTop.top_add]
        exact le_top
      · refine le_trans (relaxPartition_dget_le _ _ _ _) ?_
        exact relaxAdj_le_edge u _ st e he hlen
    · split
      · exact ih st u e hmem he hlen
      · refine le_trans (ih _ u e hmem he (by rwa [relaxAdj_length])) ?_
        exact add_le_add_right (relaxAdj_dget_le _ _ _ _) _

theorem relaxPartition_changed_true (g : Graph) (part : List ℕ) :
    ∀ st : RelaxResult, st.changed = true →
      (relaxPartition g part st).changed = true := by
  induction part with
  | nil => intro st h; exact h
  | cons u rest ih =>
    intro st h
    rw [relaxPartition_cons]
    split
    · exact ih st h
    · exact ih _ (relaxAdj_changed_true _ _ _ h)

theorem relaxPartition_changed_false (g : Graph) (part : List ℕ) :
    ∀ st : RelaxResult, (relaxPartition g part st).changed = false →
      st.changed = false ∧
      (relaxPartition g part st).distances = st.distances ∧
      ∀ u ∈ part, dget st.distances u ≠ ⊤ →
        ∀ e ∈ g.getAdjacencyList u,
          ¬(dget st.distances u + (e.weight : Dist) <
            dget st.distances e.destination) := by
  induction part with
  | nil => intro st h; exact ⟨h, rfl, by simp⟩
  | cons a rest ih =>
    intro st h
    rw [relaxPartition_cons] at h ⊢
    split at h
    · next htop =>
      obtain ⟨h1, h2, h3⟩ := ih st h
      rw [if_pos htop]
      refine ⟨h1, h2, fun u hu hne e he => ?_⟩
      rcases List.mem_cons.mp hu with rfl | hmem
      · exact absurd htop hne
      · exact h3 u hmem hne e he
    · next htop =>
      obtain ⟨h1, h2, h3⟩ := ih _ h
      obtain ⟨h4, h5, h6⟩ := relaxAdj_changed_false a _ st h1
      rw [if_neg htop]
      rw [h5] at h2 h3
      refine ⟨h4, h2, fun u hu hne e he => ?_⟩
      rcases List.mem_cons.mp hu with rfl | hmem
      · exact h6 e he
      · exact h3 u hmem hne e he

/-! ### Walks and the shortest-distance characterization

The correctness claim compares the engine with the repository's sequential
oracle `sequentialDijkstra` (the second translation unit of
graph_generator.cpp, i.e. sequential_dijkstra.cpp, embedded further below).
Both algorithms are proved to compute the value characterized here: the
least total weight over all walks from source to target, `⊤` when no walk
exists; the claim's equality then follows from uniqueness of that value. -/

/-- Walks of the graph: `Walk g s l t c` is a walk from `s` to `t` whose
successive nodes after `s` are `l` and whose total weight is `c`. -/
inductive Walk (g : Graph) : ℕ → List ℕ → ℕ → ℚ → Prop
  | nil (u : ℕ) (h : u < g.nodeCount) : Walk g u [] u 0
  | cons (u : ℕ) (e : Edge) (l : List ℕ) (t : ℕ) (c : ℚ)
      (h : u < g.nodeCount) (he : e ∈ g.getAdjacencyList u)
      (hw : Walk g e.destination l t c) :
      Walk g u (e.destination :: l) t (e.weight + c)

/-- The shortest-distance characterization used to relate the two
algorithms: `d` is a lower bound of every walk weight from `s` to `t` and is
itself attained by a walk, or is `⊤` exactly when no walk exists. At most
one `d` satisfies this (`shortestCharacterization_unique`); both the BSP
engine's final entry and `sequentialDijkstra`'s distance are proved to. -/
def IsOracleDist (g : Graph) (s t : ℕ) (d : Dist) : Prop :=
  (∀ l c, Walk g s l t c → d ≤ (c : Dist)) ∧
  (d = ⊤ ∨ ∃ l c, Walk g s l t c ∧ d = (c : Dist))

theorem walk_source_lt {g : Graph} {s : ℕ} {l : List ℕ} {t : ℕ} {c : ℚ}
    (h : Walk g s l t c) : s < g.nodeCount := by
  cases h with
  | nil _ h => exact h
  | cons _ _ _ _ _ h _ _ => exact h

theorem walk_target_lt {g : Graph} {s : ℕ} {l : List ℕ} {t : ℕ} {c : ℚ}
    (h : Walk g s l t c) : t < g.nodeCount := by
  induction h with
  | nil _ h => exact h
  | cons _ _ _ _ _ _ _ _ ih => exact ih

theorem walk_cons_inv {g : Graph} {s x : ℕ} {l : List ℕ} {t : ℕ} {c : ℚ}
    (h : Walk g s (x :: l) t c) :
    ∃ e c', e ∈ g.getAdjacencyList s ∧ e.destination = x ∧ s < g.nodeCount ∧
      Walk g x l t c' ∧ c = e.weight + c' := by
  cases h with
  | cons _ e _ _ c' hu he hw => exact ⟨e, c', he, rfl, hu, hw, rfl⟩

theorem walk_nodes_lt {g : Graph} {s : ℕ} {l : List ℕ} {t : ℕ} {c : ℚ}
    (h : Walk g s l t c) : ∀ x ∈ s :: l, x < g.nodeCount := by
  induction h with
  | nil v hv =>
    intro x hx
    rw [List.mem_singleton] at hx
    subst hx
    exact hv
  | cons v e l t c hv he hw ih =>
    intro x hx
    rcases List.mem_cons.mp hx with rfl | hx
    · exact hv
    · exact ih x hx

theorem walk_weight_nonneg {g : Graph} (hNN : g.Nonneg) {s : ℕ} {l : List ℕ}
    {t : ℕ} {c : ℚ} (h : Walk g s l t c) : 0 ≤ c := by
  induction h with
  | nil _ _ => exact le_refl 0
  | cons u e l t c h he hw ih =>
    exact add_nonneg (hNN u h e he) ih

theorem walk_snoc {g : Graph} (hWF : g.WF) {s : ℕ} {l : List ℕ} {u : ℕ} {c : ℚ}
    (h : Walk g s l u c) (e : Edge) (he : e ∈ g.getAdjacencyList u) :
    Walk g s (l ++ [e.destination]) e.destination (c + e.weight) := by
  induction h with
  | nil v hv =>
    have hd : e.destination < g.nodeCount := hWF.2 v hv e he
    simpa [zero_add, add_comm] using
      Walk.cons v e [] e.destination 0 hv he (Walk.nil e.destination hd)
  | cons v f l t c hv hf hw ih =>
    have := Walk.cons v f (l ++ [e.destination]) e.destination (c + e.weight)
      hv hf (ih he)
    simpa [add_assoc] using this

theorem walk_append {g : Graph} {s : ℕ} {l₁ : List ℕ} {m : ℕ} {c₁ : ℚ}
    (h₁ : Walk g s l₁ m c₁) {l₂ : List ℕ} {t : ℕ} {c₂ : ℚ}
    (h₂ : Walk g m l₂ t c₂) : Walk g s (l₁ ++ l₂) t (c₁ + c₂) := by
  induction h₁ with
  | nil u h => simpa using h₂
  | cons u e l t' c h he hw ih =>
    have := Walk.cons u e (l ++ l₂) t (c + c₂) h he (ih h₂)
    simpa [add_assoc] using this

theorem walk_append_inv {g : Graph} :
    ∀ (l₁ : List ℕ) {s : ℕ} {l₂ : List ℕ} {t : ℕ} {c : ℚ},
      Walk g s (l₁ ++ l₂) t c →
      ∃ m c₁ c₂, Walk g s l₁ m c₁ ∧ Walk g m l₂ t c₂ ∧ c = c₁ + c₂ := by
  intro l₁
  induction l₁ with
  | nil =>
    intro s l₂ t c h
    exact ⟨s, 0, c, Walk.nil s (walk_source_lt h), by simpa using h,
      (zero_add c).symm⟩
  | cons x l₁ ih =>
    intro s l₂ t c h
    obtain ⟨e, c', he, hed, hs, hw, rfl⟩ := walk_cons_inv h
    subst hed
    obtain ⟨m, c₁, c₂, hw₁, hw₂, rfl⟩ := ih hw
    exact ⟨m, e.weight + c₁, c₂,
      Walk.cons s e l₁ m c₁ hs he hw₁, hw₂, by rw [add_assoc]⟩

theorem walk_singleton_target {g : Graph} {m x t : ℕ} {c : ℚ}
    (h : Walk g m [x] t c) : t = x := by
  obtain ⟨e, c', he, hed, hs, hw, rfl⟩ := walk_cons_inv h
  cases hw with
  | nil _ _ => rfl

theorem walk_last_target {g : Graph} {s : ℕ} {l' : List ℕ} {x t : ℕ} {c : ℚ}
    (h : Walk g s (l' ++ [x]) t c) : t = x := by
  obtain ⟨m, c₁, c₂, _, h₂, _⟩ := walk_append_inv l' h
  exact walk_singleton_target h₂

theorem not_nodup_split (l : List ℕ) (h : ¬l.Nodup) :
    ∃ a l₁ l₂ l₃, l = l₁ ++ (a :: (l₂ ++ (a :: l₃))) := by
  induction l with
  | nil => exact absurd List.nodup_nil h
  | cons b l ih =>
    rw [List.nodup_cons] at h
    push_neg at h
    by_cases hb : b ∈ l
    · obtain ⟨l₂, l₃, rfl⟩ := List.append_of_mem hb
      exact ⟨b, [], l₂, l₃, by simp⟩
    · obtain ⟨a, l₁, l₂, l₃, rfl⟩ := ih (h hb)
      exact ⟨a, b :: l₁, l₂, l₃, by simp⟩

theorem nodup_length_le (l : List ℕ) (n : ℕ) (hd : l.Nodup)
    (hlt : ∀ x ∈ l, x < n) : l.length ≤ n := by
  have hsub : l.toFinset ⊆ Finset.range n := by
    intro x hx
    rw [Finset.mem_range]
    exact hlt x (List.mem_toFinset.mp hx)
  have := Finset.card_le_card hsub
  rwa [List.toFinset_card_of_nodup hd, Finset.card_range] at this

/-- Cycle removal: under non-negative weights, every walk dominates a walk
with fewer than `nodeCount` steps. -/
theorem walk_shorten {g : Graph} (hNN : g.Nonneg) :
    ∀ (k : ℕ) (l : List ℕ) (s t : ℕ) (c : ℚ), l.length ≤ k →
      Walk g s l t c →
      ∃ l' c', Walk g s l' t c' ∧ l'.length < g.nodeCount ∧ c' ≤ c := by
  intro k
  induction k with
  | zero =>
    intro l s t c hlen h
    have hl : l = [] := List.length_eq_zero.mp (Nat.le_zero.mp hlen)
    subst hl
    refine ⟨[], c, h, ?_, le_refl c⟩
    have := walk_source_lt h
    simpa using Nat.lt_of_lt_of_le (Nat.zero_lt_succ 0) (by omega)
  | succ k ih =>
    intro l s t c hlen h
    by_cases hnd : (s :: l).Nodup
    · refine ⟨l, c, h, ?_, le_refl c⟩
      have := nodup_length_le (s :: l) g.nodeCount hnd (walk_nodes_lt h)
      simp at this
      omega
    · obtain ⟨a, l₁, l₂, l₃, hsplit⟩ := not_nodup_split (s :: l) hnd
      cases l₁ with
      | nil =>
        rw [List.nil_append] at hsplit
        injection hsplit with hsa hl
        rw [← hsa] at hl
        rw [hl] at h
        have hra : l₂ ++ (s :: l₃) = (l₂ ++ [s]) ++ l₃ := by simp
        rw [hra] at h
        obtain ⟨m, c₁, c₂, h₁, h₂, hc⟩ := walk_append_inv (l₂ ++ [s]) h
        have hm : m = s := walk_last_target h₁
        rw [hm] at h₂
        have h₂' : Walk g s l₃ t c₂ := h₂
        have hlen₃ : l₃.length ≤ k := by
          rw [hl] at hlen
          simp at hlen
          omega
        obtain ⟨l', c', hw', hlt', hle'⟩ := ih l₃ s t c₂ hlen₃ h₂'
        refine ⟨l', c', hw', hlt', ?_⟩
        have h1nn : 0 ≤ c₁ := walk_weight_nonneg hNN h₁
        rw [hc]
        linarith
      | cons b l₁ =>
        rw [List.cons_append] at hsplit
        injection hsplit with hsb hl
        rw [hl] at h
        have hra : l₁ ++ (a :: (l₂ ++ (a :: l₃))) =
            (l₁ ++ [a]) ++ ((l₂ ++ [a]) ++ l₃) := by simp
        rw [hra] at h
        obtain ⟨m₁, c₁, c₂₃, h₁, h₂₃, hc⟩ := walk_append_inv (l₁ ++ [a]) h
        have hm₁ : m₁ = a := walk_last_target h₁
        rw [hm₁] at h₁ h₂₃
        obtain ⟨m₂, cA, cB, hA, hB, hcc⟩ := walk_append_inv (l₂ ++ [a]) h₂₃
        have hm₂ : m₂ = a := walk_last_target hA
        rw [hm₂] at hB
        have hcomb : Walk g s ((l₁ ++ [a]) ++ l₃) t (c₁ + cB) :=
          walk_append h₁ hB
        have hlenc : ((l₁ ++ [a]) ++ l₃).length ≤ k := by
          rw [hl] at hlen
          simp at hlen ⊢
          omega
        obtain ⟨l', c', hw', hlt', hle'⟩ := ih _ s t (c₁ + cB) hlenc hcomb
        refine ⟨l', c', hw', hlt', ?_⟩
        have hAnn : 0 ≤ cA := walk_weight_nonneg hNN hA
        rw [hc, hcc]
        linarith

/-! ### The attained-weight invariant and its preservation -/

/-- Soundness invariant of the distance array: every finite entry is the
weight of an actual walk from the source. -/
def DInv (g : Graph) (source : ℕ) (d : List Dist) : Prop :=
  ∀ v, dget d v = ⊤ ∨ ∃ l c, Walk g source l v c ∧ dget d v = (c : Dist)

theorem relaxAdj_DInv (g : Graph) (hWF : g.WF) (source u : ℕ) :
    ∀ (es : List Edge), (∀ e ∈ es, e ∈ g.getAdjacencyList u) →
      ∀ st : RelaxResult, DInv g source st.distances →
        DInv g source (relaxAdj u es st).distances := by
  intro es
  induction es with
  | nil => intro _ st h; exact h
  | cons e rest ih =>
    intro hes st hInv
    rw [relaxAdj_cons]
    split
    · next hlt =>
      refine ih (fun f hf => hes f (by simp [hf])) _ ?_
      intro v
      show dget (st.distances.set e.destination
        (dget st.distances u + (e.weight : Dist))) v = ⊤ ∨ _
      rw [dget_set]
      split
      · next hcond =>
        right
        have hne : dget st.distances u + (e.weight : Dist) ≠ ⊤ := ne_top_of_lt hlt
        have hu : dget st.distances u ≠ ⊤ := by
          intro h
          rw [h, WithTop.top_add] at hne
          exact hne rfl
        rcases hInv u with h | ⟨l, c, hw, hc⟩
        · exact absurd h hu
        · have hsnoc := walk_snoc hWF hw e (hes e (by simp))
          rw [hcond.1] at hsnoc
          refine ⟨l ++ [v], c + e.weight, hsnoc, ?_⟩
          rw [hc]
          push_cast
          rfl
      · exact hInv v
    · next =>
      exact ih (fun f hf => hes f (by simp [hf])) _ hInv

theorem relaxPartition_DInv (g : Graph) (hWF : g.WF) (source : ℕ) :
    ∀ (part : List ℕ) (st : RelaxResult), DInv g source st.distances →
      DInv g source (relaxPartition g part st).distances := by
  intro part
  induction part with
  | nil => intro st h; exact h
  | cons u rest ih =>
    intro st hInv
    rw [relaxPartition_cons]
    split
    · exact ih st hInv
    · exact ih _ (relaxAdj_DInv g hWF source u _ (fun e he => he) st hInv)

/-! ### Superstep-level lemmas -/

theorem list_getD_mem {α : Type} (l : List α) (r : ℕ) (d : α)
    (h : r < l.length) : l.getD r d ∈ l := by
  induction l generalizing r with
  | nil => simp at h
  | cons x xs ih =>
    cases r with
    | zero => simp
    | succ r =>
      have := ih r (by simpa using h)
      simp only [List.getD_cons_succ]
      exact List.mem_cons_of_mem _ this

theorem superstep_result (g : Graph) (P : ℕ) (s : EngineState) :
    superstep g P s =
      (⟨allreduceMin (((List.range P).map fun r =>
          stepWorker g P r s.distances (s.workers.getD r ⟨0, 0, 0⟩)).map
            fun pr => pr.1.distances),
        ((List.range P).map fun r =>
          stepWorker g P r s.distances (s.workers.getD r ⟨0, 0, 0⟩)).map
            fun pr => pr.2⟩,
       (((List.range P).map fun r =>
          stepWorker g P r s.distances (s.workers.getD r ⟨0, 0, 0⟩)).map
            fun pr => if pr.1.changed then 1 else 0).foldl max 0) := rfl

theorem stepWorker_distances (g : Graph) (P r : ℕ) (d : List Dist)
    (w : WorkerStats) :
    (stepWorker g P r d w).1.distances =
      (relaxPartition g (getRoundRobinPartition g r P)
        ⟨d, false, w.edgesRelaxed, w.localUpdates⟩).distances := rfl

theorem superstep_locals_length (g : Graph) (P : ℕ) (s : EngineState) :
    ∀ l ∈ ((List.range P).map fun r =>
        stepWorker g P r s.distances (s.workers.getD r ⟨0, 0, 0⟩)).map
          (fun pr => pr.1.distances),
      l.length = s.distances.length := by
  intro l hl
  rw [List.mem_map] at hl
  obtain ⟨pr, hpr, rfl⟩ := hl
  rw [List.mem_map] at hpr
  obtain ⟨r, _, rfl⟩ := hpr
  rw [stepWorker_distances, relaxPartition_length]

theorem superstep_length (g : Graph) (P : ℕ) (s : EngineState) (hP : 0 < P) :
    (superstep g P s).1.distances.length = s.distances.length := by
  rw [superstep_result]
  refine allreduceMin_length _ _ ?_ (superstep_locals_length g P s)
  simp [List.range_eq_nil]
  omega

theorem superstep_dget_le (g : Graph) (P : ℕ) (s : EngineState) (hP : 0 < P) :
    ∀ v, dget (superstep g P s).1.distances v ≤ dget s.distances v := by
  intro v
  rw [superstep_result]
  have h0 : (stepWorker g P 0 s.distances (s.workers.getD 0 ⟨0, 0, 0⟩)).1.distances ∈
      ((List.range P).map fun r =>
        stepWorker g P r s.distances (s.workers.getD r ⟨0, 0, 0⟩)).map
          (fun pr => pr.1.distances) := by
    rw [List.mem_map]
    refine ⟨_, ?_, rfl⟩
    rw [List.mem_map]
    exact ⟨0, by simpa using hP, rfl⟩
  refine le_trans (allreduceMin_le _ s.distances.length
    (superstep_locals_length g P s) _ h0 v) ?_
  rw [stepWorker_distances]
  exact relaxPartition_dget_le _ _ _ v

theorem superstep_le_edge (g : Graph) (P : ℕ) (s : EngineState)
    (hWF : g.WF) (hP : 0 < P) (hlen : s.distances.length = g.nodeCount) :
    ∀ u, u < g.nodeCount → ∀ e ∈ g.getAdjacencyList u,
      dget (superstep g P s).1.distances e.destination ≤
        dget s.distances u + (e.weight : Dist) := by
  intro u hu e he
  have hr : u % P < P := Nat.mod_lt u hP
  have hmem : u ∈ getRoundRobinPartition g (u % P) P :=
    (mem_getRoundRobinPartition g (u % P) P u hP hr).mpr ⟨hu, rfl⟩
  rw [superstep_result]
  have hown : (stepWorker g P (u % P) s.distances
      (s.workers.getD (u % P) ⟨0, 0, 0⟩)).1.distances ∈
      ((List.range P).map fun r =>
        stepWorker g P r s.distances (s.workers.getD r ⟨0, 0, 0⟩)).map
          (fun pr => pr.1.distances) := by
    rw [List.mem_map]
    refine ⟨_, ?_, rfl⟩
    rw [List.mem_map]
    exact ⟨u % P, by simpa using hr, rfl⟩
  refine le_trans (allreduceMin_le _ s.distances.length
    (superstep_locals_length g P s) _ hown e.destination) ?_
  rw [stepWorker_distances]
  exact relaxPartition_le_edge g _ _ u e hmem he
    (by rw [hlen]; exact hWF.2 u hu e he)

theorem superstep_DInv (g : Graph) (P : ℕ) (s : EngineState)
    (hWF : g.WF) (source : ℕ) (hInv : DInv g source s.distances) :
    DInv g source (superstep g P s).1.distances := by
  rw [superstep_result]
  intro v
  rcases Nat.eq_zero_or_pos P with rfl | hP
  · left
    simp [allreduceMin]
  · obtain ⟨l, hl, hval⟩ := allreduceMin_attained _ s.distances.length
      (by
        simp [List.range_eq_nil]
        omega)
      (superstep_locals_length g P s) v
    rw [List.mem_map] at hl
    obtain ⟨pr, hpr, rfl⟩ := hl
    rw [List.mem_map] at hpr
    obtain ⟨r, _, rfl⟩ := hpr
    rw [hval, stepWorker_distances]
    exact relaxPartition_DInv g hWF source _ _ hInv v

theorem superstep_flag_zero (g : Graph) (P : ℕ) (s : EngineState) (hP : 0 < P)
    (hflag : (superstep g P s).2 = 0) :
    (∀ v, dget (superstep g P s).1.distances v = dget s.distances v) ∧
    (∀ u, u < g.nodeCount → ∀ e ∈ g.getAdjacencyList u,
      dget s.distances e.destination ≤ dget s.distances u + (e.weight : Dist)) := by
  rw [superstep_result] at hflag
  have hall := (foldl_max_eq_zero _ 0).mp hflag
  have hchanged : ∀ r < P,
      (stepWorker g P r s.distances (s.workers.getD r ⟨0, 0, 0⟩)).1.changed = false := by
    intro r hr
    have hmem : (if (stepWorker g P r s.distances
        (s.workers.getD r ⟨0, 0, 0⟩)).1.changed then 1 else 0) ∈
        ((List.range P).map fun r =>
          stepWorker g P r s.distances (s.workers.getD r ⟨0, 0, 0⟩)).map
            (fun pr => if pr.1.changed then (1 : ℕ) else 0) := by
      rw [List.mem_map]
      refine ⟨_, ?_, rfl⟩
      rw [List.mem_map]
      exact ⟨r, by simpa using hr, rfl⟩
    have := hall.2 _ hmem
    by_contra hc
    rw [eq_true_of_ne_false hc] at this
    simp at this
  have hunchanged : ∀ r < P,
      (stepWorker g P r s.distances (s.workers.getD r ⟨0, 0, 0⟩)).1.distances =
        s.distances := by
    intro r hr
    have := (relaxPartition_changed_false g (getRoundRobinPartition g r P) _
      (hchanged r hr)).2.1
    exact this
  constructor
  · intro v
    rw [superstep_result]
    obtain ⟨l, hl, hval⟩ := allreduceMin_attained _ s.distances.length
      (by
        simp [List.range_eq_nil]
        omega)
      (superstep_locals_length g P s) v
    rw [List.mem_map] at hl
    obtain ⟨pr, hpr, rfl⟩ := hl
    rw [List.mem_map] at hpr
    obtain ⟨r, hr, rfl⟩ := hpr
    rw [hval, hunchanged r (by simpa using hr)]
  · intro u hu e he
    by_cases htop : dget s.distances u = ⊤
    · rw [htop, WithTop.top_add]
      exact le_top
    · have hr : u % P < P := Nat.mod_lt u hP
      have hmem : u ∈ getRoundRobinPartition g (u % P) P :=
        (mem_getRoundRobinPartition g (u % P) P u hP hr).mpr ⟨hu, rfl⟩
      have hcond := (relaxPartition_changed_false g
        (getRoundRobinPartition g (u % P) P) _ (hchanged _ hr)).2.2
      exact not_lt.mp (hcond u hmem htop e he)

/-! ### Initialization -/

theorem initLocal_length (g : Graph) (P r source : ℕ) :
    (initLocal g P r source).length = g.nodeCount := by
  rw [initLocal]
  split
  · rw [List.length_set, List.length_replicate]
  · rw [List.length_replicate]

theorem initLocal_dget_owner (g : Graph) (P source : ℕ) (hP : 0 < P)
    (hs : source < g.nodeCount) (v : ℕ) :
    dget (initLocal g P (source % P) source) v =
      if source = v ∧ v < g.nodeCount then 0 else ⊤ := by
  rw [initLocal, if_pos ((mem_getRoundRobinPartition g (source % P) P source hP
    (Nat.mod_lt source hP)).mpr ⟨hs, rfl⟩)]
  rw [dget_set, List.length_replicate]
  split
  · rfl
  · exact dget_replicate _ _

theorem initLocal_dget_other (g : Graph) (P r source : ℕ) (hP : 0 < P)
    (hr : r < P) (hne : r ≠ source % P) (v : ℕ) :
    dget (initLocal g P r source) v = ⊤ := by
  rw [initLocal, if_neg, dget_replicate]
  intro hmem
  exact hne ((mem_getRoundRobinPartition g r P source hP hr).mp hmem).2.symm

theorem initGlobal_eq (g : Graph) (P source : ℕ) (hP : 0 < P)
    (hs : source < g.nodeCount) :
    initGlobal g P source =
      (List.replicate g.nodeCount (⊤ : Dist)).set source 0 := by
  have hne : (List.range P).map (fun r => initLocal g P r source) ≠ [] := by
    simp [List.range_eq_nil]
    omega
  have hlens : ∀ l ∈ (List.range P).map (fun r => initLocal g P r source),
      l.length = g.nodeCount := by
    intro l hl
    rw [List.mem_map] at hl
    obtain ⟨r, _, rfl⟩ := hl
    exact initLocal_length g P r source
  refine list_eq_of_dget _ _ ?_ ?_
  · rw [initGlobal, allreduceMin_length _ _ hne hlens,
      List.length_set, List.length_replicate]
  · intro v
    have htgt : dget ((List.replicate g.nodeCount (⊤ : Dist)).set source 0) v =
        if source = v ∧ v < g.nodeCount then 0 else ⊤ := by
      rw [dget_set, List.length_replicate]
      split
      · rfl
      · exact dget_replicate _ _
    have hown : initLocal g P (source % P) source ∈
        (List.range P).map (fun r => initLocal g P r source) := by
      rw [List.mem_map]
      exact ⟨source % P, by simpa using Nat.mod_lt source hP, rfl⟩
    obtain ⟨l, hl, hval⟩ := allreduceMin_attained _ g.nodeCount hne hlens v
    rw [List.mem_map] at hl
    obtain ⟨r, hr, rfl⟩ := hl
    rw [List.mem_range] at hr
    rw [initGlobal, htgt]
    by_cases hcase : source = v ∧ v < g.nodeCount
    · rw [if_pos hcase]
      have hle : dget (allreduceMin ((List.range P).map
          (fun r => initLocal g P r source))) v ≤ 0 := by
        refine le_trans (allreduceMin_le _ g.nodeCount hlens _ hown v) ?_
        rw [initLocal_dget_owner g P source hP hs v, if_pos hcase]
      by_cases hrown : r = source % P
      · subst hrown
        rw [hval, initLocal_dget_owner g P source hP hs v, if_pos hcase]
      · rw [hval, initLocal_dget_other g P r source hP hr hrown v] at hle ⊢
        exact absurd hle (by simp)
    · rw [if_neg hcase, hval]
      by_cases hrown : r = source % P
      · subst hrown
        rw [initLocal_dget_owner g P source hP hs v, if_neg hcase]
      · exact initLocal_dget_other g P r source hP hr hrown v

theorem initGlobal_length (g : Graph) (P source : ℕ) (hP : 0 < P)
    (hs : source < g.nodeCount) :
    (initGlobal g P source).length = g.nodeCount := by
  rw [initGlobal_eq g P source hP hs, List.length_set, List.length_replicate]

theorem initGlobal_dget_source (g : Graph) (P source : ℕ) (hP : 0 < P)
    (hs : source < g.nodeCount) :
    dget (initGlobal g P source) source = 0 := by
  rw [initGlobal_eq g P source hP hs, dget_set, List.length_replicate,
    if_pos ⟨rfl, hs⟩]

theorem initGlobal_DInv (g : Graph) (P source : ℕ) (hP : 0 < P)
    (hs : source < g.nodeCount) : DInv g source (initGlobal g P source) := by
  intro v
  rw [initGlobal_eq g P source hP hs, dget_set, List.length_replicate]
  split
  · next h =>
    right
    obtain ⟨h1, h2⟩ := h
    subst h1
    exact ⟨[], 0, Walk.nil source hs, by simp⟩
  · next h =>
    left
    exact dget_replicate _ _

/-! ### The loop: upper bound, invariant, fixed points -/

theorem walk_nil_inv {g : Graph} {s v : ℕ} {c : ℚ} (h : Walk g s [] v c) :
    v = s ∧ c = 0 := by
  cases h with
  | nil _ _ => exact ⟨rfl, rfl⟩

/-- Every walk of at most `j` steps bounds the corresponding entry. -/
def UBnd (g : Graph) (source j : ℕ) (d : List Dist) : Prop :=
  ∀ v l c, Walk g source l v c → l.length ≤ j → dget d v ≤ (c : Dist)

theorem superstep_UBnd (g : Graph) (P : ℕ) (s : EngineState)
    (hWF : g.WF) (hP : 0 < P) (hlen : s.distances.length = g.nodeCount)
    (source j : ℕ) (hub : UBnd g source j s.distances)
    (hsrc : dget s.distances source ≤ 0) :
    UBnd g source (j + 1) (superstep g P s).1.distances := by
  intro v l c hw hl
  rcases List.eq_nil_or_concat l with rfl | ⟨l', x, rfl⟩
  · obtain ⟨hv, hc⟩ := walk_nil_inv hw
    rw [hv, hc]
    refine le_trans (superstep_dget_le g P s hP source) (le_trans hsrc ?_)
    push_cast
    exact le_refl _
  · rw [List.concat_eq_append] at hw hl
    obtain ⟨m, c₁, c₂, h₁, h₂, rfl⟩ := walk_append_inv l' hw
    obtain ⟨e, c', he, hed, hm, hw', rfl⟩ := walk_cons_inv h₂
    obtain ⟨hv, hc⟩ := walk_nil_inv hw'
    rw [hv, hc]
    have hmn : m < g.nodeCount := hm
    have hstep := superstep_le_edge g P s hWF hP hlen m hmn e he
    rw [hed] at hstep
    have hl' : l'.length ≤ j := by
      rw [List.length_append] at hl
      simpa using hl
    have hc₁ : dget s.distances m ≤ (c₁ : Dist) := hub m l' c₁ h₁ hl'
    refine le_trans hstep (le_trans (add_le_add_right hc₁ _) ?_)
    rw [add_zero]
    push_cast
    exact le_refl _

theorem bspLoop_succ (g : Graph) (P : ℕ) (s : EngineState) (fuel : ℕ) :
    bspLoop g P s (fuel + 1) =
      if (superstep g P s).2 = 0 then ((superstep g P s).1, true)
      else bspLoop g P (superstep g P s).1 fuel := rfl

theorem fp_walk_aux (g : Graph) (d : List Dist)
    (hfp : ∀ u, u < g.nodeCount → ∀ e ∈ g.getAdjacencyList u,
      dget d e.destination ≤ dget d u + (e.weight : Dist)) :
    ∀ {u : ℕ} {l : List ℕ} {v : ℕ} {c : ℚ}, Walk g u l v c →
      ∀ x : Dist, dget d u ≤ x → dget d v ≤ x + (c : Dist) := by
  intro u l v c hw
  induction hw with
  | nil w hw =>
    intro x hx
    refine le_trans hx ?_
    push_cast
    rw [add_zero]
  | cons w e l t c hwn he hsub ih =>
    intro x hx
    have h1 : dget d e.destination ≤ x + (e.weight : Dist) :=
      le_trans (hfp w hwn e he) (add_le_add_right hx _)
    have := ih (x + (e.weight : Dist)) h1
    refine le_trans this ?_
    rw [add_assoc]
    push_cast
    exact le_refl _

theorem bspLoop_ub (g : Graph) (P source : ℕ) (hWF : g.WF) (hP : 0 < P) :
    ∀ (fuel : ℕ) (s : EngineState) (j : ℕ),
      s.distances.length = g.nodeCount →
      dget s.distances source ≤ 0 →
      UBnd g source j s.distances →
      ∀ v l c, Walk g source l v c → l.length ≤ j + fuel →
        dget (bspLoop g P s fuel).1.distances v ≤ (c : Dist) := by
  intro fuel
  induction fuel with
  | zero =>
    intro s j hlen hsrc hub v l c hw hl
    exact hub v l c hw (by simpa using hl)
  | succ fuel ih =>
    intro s j hlen hsrc hub v l c hw hl
    rw [bspLoop_succ]
    split
    · next hflag =>
      obtain ⟨heq, hfp⟩ := superstep_flag_zero g P s hP hflag
      show dget (superstep g P s).1.distances v ≤ (c : Dist)
      rw [heq v]
      have := fp_walk_aux g s.distances hfp hw 0 (by simpa using hsrc)
      simpa using this
    · next hflag =>
      refine ih (superstep g P s).1 (j + 1) ?_ ?_ ?_ v l c hw (by omega)
      · rw [superstep_length g P s hP, hlen]
      · exact le_trans (superstep_dget_le g P s hP source) hsrc
      · exact superstep_UBnd g P s hWF hP hlen source j hub hsrc

theorem bspLoop_DInv (g : Graph) (P source : ℕ) (hWF : g.WF) :
    ∀ (fuel : ℕ) (s : EngineState), DInv g source s.distances →
      DInv g source (bspLoop g P s fuel).1.distances := by
  intro fuel
  induction fuel with
  | zero => intro s h; exact h
  | succ fuel ih =>
    intro s h
    rw [bspLoop_succ]
    split
    · exact superstep_DInv g P s hWF source h
    · exact ih _ (superstep_DInv g P s hWF source h)

/-! ### C1: the engine agrees with the sequential oracle -/

/-- The engine side of C1: the distance held for the destination when the
relaxation loop terminates satisfies the least-walk-weight
characterization. -/
theorem engine_shortest_characterization (g : Graph) (P source destination : ℕ)
    (hWF : g.WF) (hNN : g.Nonneg) (hP : 1 ≤ P)
    (hs : source < g.nodeCount) (hd : destination < g.nodeCount) :
    IsOracleDist g source destination
      (dget (runEngine g P source).1.distances destination) := by
  have hP' : 0 < P := hP
  have hlen0 : (initState g P source).distances.length = g.nodeCount :=
    initGlobal_length g P source hP' hs
  have hsrc0 : dget (initState g P source).distances source ≤ 0 := by
    show dget (initGlobal g P source) source ≤ 0
    rw [initGlobal_dget_source g P source hP' hs]
  have hub0 : UBnd g source 0 (initState g P source).distances := by
    intro v l c hw hl
    have hnil : l = [] := List.length_eq_zero.mp (Nat.le_zero.mp hl)
    subst hnil
    obtain ⟨hv, hc⟩ := walk_nil_inv hw
    rw [hv, hc]
    show dget (initGlobal g P source) source ≤ _
    rw [initGlobal_dget_source g P source hP' hs]
    push_cast
    exact le_refl _
  constructor
  · intro l c hw
    obtain ⟨l', c', hw', hlt, hle⟩ :=
      walk_shorten hNN l.length l source destination c (le_refl _) hw
    have := bspLoop_ub g P source hWF hP' g.nodeCount (initState g P source) 0
      hlen0 hsrc0 hub0 destination l' c' hw' (by omega)
    exact le_trans this (by exact_mod_cast hle)
  · have hDInv : DInv g source (runEngine g P source).1.distances :=
      bspLoop_DInv g P source hWF g.nodeCount (initState g P source)
        (initGlobal_DInv g P source hP' hs)
    rcases hDInv destination with h | ⟨l, c, hw, hc⟩
    · exact Or.inl h
    · exact Or.inr ⟨l, c, hw, hc⟩

/-! ### Concrete graphs used by witnesses and counterexamples -/

/-- Two nodes, one unit edge `0 → 1`. -/
def gPath2 : Graph := ⟨2, [[⟨1, 1⟩], []], 1⟩

/-- A directed chain `0 → 1 → ⋯ → k-1` with unit weights inside a graph of
`n ≥ k` nodes (nodes `k, …, n-1` are isolated). -/
def chainGraph (n k : ℕ) : Graph :=
  ⟨n, (List.range n).map (fun i => if i + 1 < k then [⟨i + 1, 1⟩] else []), k - 1⟩

/-- Scenario B of the spec: components `{0,1}` and `{2,3}`, each a
bidirectional unit edge. -/
def gScenB : Graph := ⟨4, [[⟨1, 1⟩], [⟨0, 1⟩], [⟨3, 1⟩], [⟨2, 1⟩]], 4⟩

/-! ### C2: partition exactness -/

/-- C2: for every worker count `P ≥ 1`, membership in rank `r`'s round-robin
partition is exactly `x < nodeCount ∧ owner(x) = r` with `owner(x) = x % P`;
hence the partitions cover `{0,…,nodeCount-1}` (second conjunct), are
pairwise disjoint (third conjunct), and contain only in-range nodes
(fourth conjunct). -/
theorem partition_exact (g : Graph) (P : ℕ) (hP : 1 ≤ P) :
    (∀ x r, r < P → (x ∈ getRoundRobinPartition g r P ↔
        x < g.nodeCount ∧ getNodeOwnerRoundRobin x P = r)) ∧
    (∀ x, x < g.nodeCount →
      x ∈ getRoundRobinPartition g (getNodeOwnerRoundRobin x P) P) ∧
    (∀ r₁ r₂, r₁ < P → r₂ < P → r₁ ≠ r₂ →
      ∀ x, ¬(x ∈ getRoundRobinPartition g r₁ P ∧
             x ∈ getRoundRobinPartition g r₂ P)) ∧
    (∀ r, r < P → ∀ x ∈ getRoundRobinPartition g r P, x < g.nodeCount) := by
  have hP' : 0 < P := hP
  refine ⟨fun x r hr => mem_getRoundRobinPartition g r P x hP' hr, ?_, ?_, ?_⟩
  · intro x hx
    exact (mem_getRoundRobinPartition g (x % P) P x hP'
      (Nat.mod_lt x hP')).mpr ⟨hx, rfl⟩
  · rintro r₁ r₂ h₁ h₂ hne x ⟨hm₁, hm₂⟩
    have e₁ := ((mem_getRoundRobinPartition g r₁ P x hP' h₁).mp hm₁).2
    have e₂ := ((mem_getRoundRobinPartition g r₂ P x hP' h₂).mp hm₂).2
    exact hne (e₁ ▸ e₂)
  · intro r _ x hx
    exact mem_partition_lt g r P x hx

theorem partition_exact_witness :
    1 ≤ 3 ∧
    ((∀ x r, r < 3 → (x ∈ getRoundRobinPartition ⟨7, [], 0⟩ r 3 ↔
        x < Graph.nodeCount ⟨7, [], 0⟩ ∧ getNodeOwnerRoundRobin x 3 = r)) ∧
    (∀ x, x < Graph.nodeCount ⟨7, [], 0⟩ →
      x ∈ getRoundRobinPartition ⟨7, [], 0⟩ (getNodeOwnerRoundRobin x 3) 3) ∧
    (∀ r₁ r₂, r₁ < 3 → r₂ < 3 → r₁ ≠ r₂ →
      ∀ x, ¬(x ∈ getRoundRobinPartition ⟨7, [], 0⟩ r₁ 3 ∧
             x ∈ getRoundRobinPartition ⟨7, [], 0⟩ r₂ 3)) ∧
    (∀ r, r < 3 → ∀ x ∈ getRoundRobinPartition ⟨7, [], 0⟩ r 3,
      x < Graph.nodeCount ⟨7, [], 0⟩)) :=
  ⟨by decide, partition_exact ⟨7, [], 0⟩ 3 (by decide)⟩

/-! ### C3: monotonicity, pinned source, unreached nodes -/

/-- The sequence of shared states through the supersteps: state `k` is the
shared array after the `k`-th global minimum reduction (`k = 0` right after
initialization). -/
def iterN (g : Graph) (P source : ℕ) : ℕ → EngineState
  | 0 => initState g P source
  | k + 1 => (superstep g P (iterN g P source k)).1

theorem iterN_DInv (g : Graph) (P source : ℕ) (hWF : g.WF) (hP : 0 < P)
    (hs : source < g.nodeCount) :
    ∀ k, DInv g source (iterN g P source k).distances := by
  intro k
  induction k with
  | zero => exact initGlobal_DInv g P source hP hs
  | succ k ih => exact superstep_DInv g P _ hWF source ih

theorem iterN_length (g : Graph) (P source : ℕ) (hP : 0 < P)
    (hs : source < g.nodeCount) :
    ∀ k, (iterN g P source k).distances.length = g.nodeCount := by
  intro k
  induction k with
  | zero => exact initGlobal_length g P source hP hs
  | succ k ih => rw [iterN, superstep_length g P _ hP, ih]

/-- C3: across every superstep the shared distance array is component-wise
non-increasing; with non-negative weights `distance[source]` equals `0` at
every synchronization point once set by initialization; and a node with no
walk from the source holds `+∞` at every synchronization point. -/
theorem distances_monotone (g : Graph) (P source : ℕ)
    (hWF : g.WF) (hNN : g.Nonneg) (hP : 1 ≤ P) (hs : source < g.nodeCount) :
    ∀ k, (∀ v, dget (iterN g P source (k + 1)).distances v ≤
            dget (iterN g P source k).distances v) ∧
         dget (iterN g P source k).distances source = 0 ∧
         (∀ v, (¬∃ l c, Walk g source l v c) →
            dget (iterN g P source k).distances v = ⊤) := by
  have hP' : 0 < P := hP
  have hsource : ∀ k, dget (iterN g P source k).distances source = 0 := by
    intro k
    induction k with
    | zero => exact initGlobal_dget_source g P source hP' hs
    | succ k ih =>
      have hle : dget (iterN g P source (k + 1)).distances source ≤ 0 := by
        rw [← ih]
        exact superstep_dget_le g P _ hP' source
      rcases iterN_DInv g P source hWF hP' hs (k + 1) source with h | ⟨l, c, hw, hc⟩
      · rw [h] at hle
        exact absurd hle (by simp)
      · have hc0 : 0 ≤ c := walk_weight_nonneg hNN hw
        rw [hc] at hle ⊢
        have : c ≤ 0 := by exact_mod_cast hle
        have : c = 0 := le_antisymm this hc0
        rw [this]
        push_cast
        rfl
  intro k
  refine ⟨fun v => superstep_dget_le g P _ hP' v, hsource k, ?_⟩
  intro v hnw
  rcases iterN_DInv g P source hWF hP' hs k v with h | ⟨l, c, hw, _⟩
  · exact h
  · exact absurd ⟨l, c, hw⟩ hnw

theorem distances_monotone_witness :
    (gPath2.WF ∧ gPath2.Nonneg ∧ 1 ≤ 2 ∧ 0 < gPath2.nodeCount) ∧
    (∀ k, (∀ v, dget (iterN gPath2 2 0 (k + 1)).distances v ≤
            dget (iterN gPath2 2 0 k).distances v) ∧
         dget (iterN gPath2 2 0 k).distances 0 = 0 ∧
         (∀ v, (¬∃ l c, Walk gPath2 0 l v c) →
            dget (iterN gPath2 2 0 k).distances v = ⊤)) :=
  ⟨⟨by decide, by decide, by decide, by decide⟩,
   distances_monotone gPath2 2 0 (by decide) (by decide) (by decide) (by decide)⟩

/-! ### C9: statistics aggregation -/

theorem superstep_workers_length (g : Graph) (P : ℕ) (s : EngineState) :
    (superstep g P s).1.workers.length = P := by
  rw [superstep_result]
  simp

theorem superstep_workers_iters (g : Graph) (P : ℕ) (s : EngineState) (j : ℕ)
    (hlen : s.workers.length = P)
    (hall : ∀ w ∈ s.workers, w.iterationsCompleted = j) :
    ∀ w ∈ (superstep g P s).1.workers, w.iterationsCompleted = j + 1 := by
  rw [superstep_result]
  intro w hw
  rw [List.mem_map] at hw
  obtain ⟨pr, hpr, rfl⟩ := hw
  rw [List.mem_map] at hpr
  obtain ⟨r, hr, rfl⟩ := hpr
  rw [List.mem_range] at hr
  show (s.workers.getD r ⟨0, 0, 0⟩).iterationsCompleted + 1 = j + 1
  rw [hall _ (list_getD_mem s.workers r ⟨0, 0, 0⟩ (by rw [hlen]; exact hr))]

theorem bspLoop_workers (g : Graph) (P : ℕ) :
    ∀ (fuel : ℕ) (s : EngineState) (j : ℕ), s.workers.length = P →
      (∀ w ∈ s.workers, w.iterationsCompleted = j) →
      ∃ m, (∀ w ∈ (bspLoop g P s fuel).1.workers,
          w.iterationsCompleted = j + m) ∧
        (bspLoop g P s fuel).1.workers.length = P := by
  intro fuel
  induction fuel with
  | zero =>
    intro s j hlen hall
    exact ⟨0, fun w hw => by rw [hall w hw, Nat.add_zero], hlen⟩
  | succ fuel ih =>
    intro s j hlen hall
    rw [bspLoop_succ]
    split
    · exact ⟨1, superstep_workers_iters g P s j hlen hall,
        superstep_workers_length g P s⟩
    · obtain ⟨m, hm, hl⟩ := ih (superstep g P s).1 (j + 1)
        (superstep_workers_length g P s)
        (superstep_workers_iters g P s j hlen hall)
      exact ⟨m + 1, fun w hw => by rw [hm w hw]; omega, hl⟩

/-- C9: every worker completes the same number of supersteps (the loop is
collective: the break decision is the max-reduced flag, identical on all
ranks), and the final summary reduces `edgesRelaxed`/`localUpdates` with a
sum and `iterationsCompleted` with a max, so the reported max equals the
common per-worker superstep count. -/
theorem stats_aggregation (g : Graph) (P source : ℕ) (hP : 1 ≤ P) :
    ∃ j, (∀ w ∈ (runEngine g P source).1.workers,
        w.iterationsCompleted = j) ∧
      reportedIterations (runEngine g P source).1 = j ∧
      (runEngine g P source).1.workers.length = P ∧
      totalEdgesRelaxed (runEngine g P source).1 =
        ((runEngine g P source).1.workers.map fun w => w.edgesRelaxed).sum ∧
      totalLocalUpdates (runEngine g P source).1 =
        ((runEngine g P source).1.workers.map fun w => w.localUpdates).sum := by
  obtain ⟨m, hm, hl⟩ := bspLoop_workers g P g.nodeCount (initState g P source) 0
    (by simp [initState])
    (by
      intro w hw
      simp only [initState] at hw
      rw [List.eq_of_mem_replicate hw])
  simp only [runEngine]
  refine ⟨m, by simpa using hm, ?_, hl, rfl, rfl⟩
  have hne : ((bspLoop g P (initState g P source) g.nodeCount).1.workers.map
      fun w => w.iterationsCompleted) ≠ [] := by
    intro h
    have hlen2 := congrArg List.length h
    rw [List.length_map, hl] at hlen2
    simp at hlen2
    omega
  have hallx : ∀ x ∈ ((bspLoop g P (initState g P source) g.nodeCount).1.workers.map
      fun w => w.iterationsCompleted), x = m := by
    intro x hx
    rw [List.mem_map] at hx
    obtain ⟨w, hw, rfl⟩ := hx
    simpa using hm w hw
  rw [reportedIterations, foldl_max_const _ m 0 hallx hne, Nat.zero_max]

theorem stats_aggregation_witness :
    1 ≤ 2 ∧
    ∃ j, (∀ w ∈ (runEngine gPath2 2 0).1.workers,
        w.iterationsCompleted = j) ∧
      reportedIterations (runEngine gPath2 2 0).1 = j ∧
      (runEngine gPath2 2 0).1.workers.length = 2 ∧
      totalEdgesRelaxed (runEngine gPath2 2 0).1 =
        ((runEngine gPath2 2 0).1.workers.map fun w => w.edgesRelaxed).sum ∧
      totalLocalUpdates (runEngine gPath2 2 0).1 =
        ((runEngine gPath2 2 0).1.workers.map fun w => w.localUpdates).sum :=
  ⟨by decide, stats_aggregation gPath2 2 0 (by decide)⟩

/-! ### C10: unvalidated destination, out-of-bounds report read -/

/-- C10: main performs no range validation of the destination argument: on a
2-node graph with destination 5, the report-time read `distances[destination]`
falls outside the final distance array — in this total embedding the `none`
branch of that access is reached while the array itself has length 2. -/
theorem destination_read_out_of_bounds :
    finalDistanceRead gPath2 1 0 5 = none ∧
    (runEngine gPath2 1 0).1.distances.length = 2 := by
  constructor
  · with_unfolding_all rfl
  · with_unfolding_all rfl

/-! ### Symbolic analysis of the unit-weight chain (C4, C5) -/

theorem getD_map_range {α : Type} (f : ℕ → α) (d : α) (n u : ℕ) :
    ((List.range n).map f).getD u d = if u < n then f u else d := by
  rw [List.getD_eq_getElem?_getD, List.getElem?_map]
  by_cases h : u < n
  · rw [List.getElem?_range h, if_pos h]
    rfl
  · rw [if_neg h, List.getElem?_eq_none
      (by simpa [List.length_range] using not_lt.mp h)]
    rfl

theorem chainGraph_adj (n k u : ℕ) :
    (chainGraph n k).getAdjacencyList u =
      if u < n then (if u + 1 < k then [⟨u + 1, 1⟩] else []) else [] := by
  rw [Graph.getAdjacencyList]
  exact getD_map_range _ [] n u

theorem chainGraph_WF (n k : ℕ) (hkn : k ≤ n) : (chainGraph n k).WF := by
  constructor
  · rw [chainGraph]
    simp
  · intro u hu e he
    have hun : u < n := hu
    rw [chainGraph_adj, if_pos hun] at he
    split at he
    · next h =>
      rw [List.mem_singleton] at he
      rw [he]
      show u + 1 < n
      omega
    · simp at he

/-- Shared distance profile of the chain after `m` supersteps (frontier at
`min m (k-1)`): node `j` holds `j` for `j ≤ m`, `+∞` beyond. -/
def chainD (n k m : ℕ) : List Dist :=
  (List.range n).map (fun j => if j ≤ m ∧ j < k then ((j : ℚ) : Dist) else ⊤)

theorem chainD_length (n k m : ℕ) : (chainD n k m).length = n := by
  rw [chainD, List.length_map, List.length_range]

theorem dget_chainD (n k m v : ℕ) :
    dget (chainD n k m) v =
      if v < n ∧ v ≤ m ∧ v < k then ((v : ℚ) : Dist) else ⊤ := by
  rw [dget, chainD, getD_map_range]
  by_cases h : v < n
  · rw [if_pos h]
    by_cases h2 : v ≤ m ∧ v < k
    · rw [if_pos h2, if_pos ⟨h, h2⟩]
    · rw [if_neg h2, if_neg (by tauto)]
  · rw [if_neg h, if_neg (by tauto)]

theorem cast_succ_dist (u : ℕ) :
    ((u : ℚ) : Dist) + ((1 : ℚ) : Dist) = (((u + 1 : ℕ) : ℚ) : Dist) := by
  push_cast
  rfl

theorem chainD_set (n k m : ℕ) (hm : m + 1 < k) (hkn : k ≤ n) :
    (chainD n k m).set (m + 1) (((m + 1 : ℕ) : ℚ) : Dist) =
      chainD n k (m + 1) := by
  refine list_eq_of_dget _ _ ?_ ?_
  · rw [List.length_set, chainD_length, chainD_length]
  · intro v
    rw [dget_set, chainD_length, dget_chainD, dget_chainD]
    by_cases hv : m + 1 = v ∧ v < n
    · rw [if_pos hv, if_pos (by omega)]
      rw [← hv.1]
    · rw [if_neg hv]
      by_cases h1 : v < n ∧ v ≤ m ∧ v < k
      · rw [if_pos h1, if_pos (by omega)]
      · rw [if_neg h1, if_neg (by omega)]

theorem relaxAdj_chain_nochange (n k m u : ℕ) (hkn : k ≤ n)
    (st : RelaxResult) (hd : st.distances = chainD n k m)
    (hne : dget st.distances u ≠ ⊤) (hu : m < k - 1 → u ≠ m) :
    (relaxAdj u ((chainGraph n k).getAdjacencyList u) st).distances =
        chainD n k m ∧
      (relaxAdj u ((chainGraph n k).getAdjacencyList u) st).changed =
        st.changed := by
  have hcond : u < n ∧ u ≤ m ∧ u < k := by
    by_contra hc
    rw [hd, dget_chainD, if_neg hc] at hne
    exact hne rfl
  rw [chainGraph_adj, if_pos hcond.1]
  by_cases hedge : u + 1 < k
  · rw [if_pos hedge, relaxAdj_cons]
    have hu1 : u + 1 ≤ m ∧ u + 1 < k := by
      by_cases hcase : m < k - 1
      · have := hu hcase
        omega
      · omega
    have hgetu : dget st.distances u = ((u : ℚ) : Dist) := by
      rw [hd, dget_chainD, if_pos ⟨hcond.1, hcond.2.1, hcond.2.2⟩]
    have hget : dget st.distances (u + 1) = (((u + 1 : ℕ) : ℚ) : Dist) := by
      rw [hd, dget_chainD, if_pos ⟨by omega, hu1.1, hu1.2⟩]
    rw [if_neg]
    · exact ⟨hd, rfl⟩
    · show ¬(dget st.distances u + ((1 : ℚ) : Dist) < dget st.distances (u + 1))
      rw [hget, hgetu, cast_succ_dist]
      exact lt_irrefl _
  · rw [if_neg hedge]
    exact ⟨hd, rfl⟩

theorem relaxAdj_chain_update (n k m : ℕ) (hkn : k ≤ n) (hm : m < k - 1)
    (st : RelaxResult) (hd : st.distances = chainD n k m) :
    (relaxAdj m ((chainGraph n k).getAdjacencyList m) st).distances =
        chainD n k (m + 1) ∧
      (relaxAdj m ((chainGraph n k).getAdjacencyList m) st).changed = true := by
  have hmn : m < n := by omega
  have hmk : m + 1 < k := by omega
  rw [chainGraph_adj, if_pos hmn, if_pos hmk, relaxAdj_cons]
  have hgetu : dget st.distances m = ((m : ℚ) : Dist) := by
    rw [hd, dget_chainD, if_pos ⟨hmn, le_refl m, by omega⟩]
  have hget1 : dget st.distances (m + 1) = ⊤ := by
    rw [hd, dget_chainD, if_neg (by omega)]
  rw [if_pos]
  · constructor
    · show st.distances.set (m + 1)
        (dget st.distances m + ((1 : ℚ) : Dist)) = chainD n k (m + 1)
      rw [hgetu, cast_succ_dist, hd]
      exact chainD_set n k m hmk hkn
    · rfl
  · show dget st.distances m + ((1 : ℚ) : Dist) < dget st.distances (m + 1)
    rw [hget1, hgetu, cast_succ_dist]
    exact WithTop.coe_lt_top _

theorem relaxPartition_chain_nochange (n k m : ℕ) (hkn : k ≤ n) :
    ∀ (part : List ℕ) (st : RelaxResult), st.distances = chainD n k m →
      (m < k - 1 → m ∉ part) →
      (relaxPartition (chainGraph n k) part st).distances = chainD n k m ∧
      (relaxPartition (chainGraph n k) part st).changed = st.changed := by
  intro part
  induction part with
  | nil => intro st hd _; exact ⟨hd, rfl⟩
  | cons u rest ih =>
    intro st hd hnm
    rw [relaxPartition_cons]
    split
    · exact ih st hd (fun hc => fun hmem => hnm hc (List.mem_cons_of_mem _ hmem))
    · next hne =>
      have hu : m < k - 1 → u ≠ m := by
        intro hc
        have := hnm hc
        intro he
        exact this (he ▸ List.mem_cons_self u rest)
      obtain ⟨h1, h2⟩ := relaxAdj_chain_nochange n k m u hkn st hd hne hu
      obtain ⟨h3, h4⟩ := ih _ h1
        (fun hc hmem => hnm hc (List.mem_cons_of_mem _ hmem))
      exact ⟨h3, by rw [h4, h2]⟩

theorem relaxPartition_chain_update (n k m : ℕ) (hkn : k ≤ n) (hm : m < k - 1) :
    ∀ (part : List ℕ) (st : RelaxResult), st.distances = chainD n k m →
      m ∈ part → (m + 1) ∉ part →
      (relaxPartition (chainGraph n k) part st).distances = chainD n k (m + 1) ∧
      (relaxPartition (chainGraph n k) part st).changed = true := by
  intro part
  induction part with
  | nil => intro st _ hmem; simp at hmem
  | cons u rest ih =>
    intro st hd hmem hnm
    rw [relaxPartition_cons]
    by_cases hu : u = m
    · rw [hu]
      rw [if_neg]
      · obtain ⟨h1, h2⟩ := relaxAdj_chain_update n k m hkn hm st hd
        obtain ⟨h3, h4⟩ := relaxPartition_chain_nochange n k (m + 1) hkn rest _ h1
          (fun _ hmem1 => hnm (List.mem_cons_of_mem _ hmem1))
        exact ⟨h3, by rw [h4, h2]⟩
      · rw [hd, dget_chainD, if_pos ⟨by omega, le_refl m, by omega⟩]
        exact WithTop.coe_ne_top
    · have hmem' : m ∈ rest := by
        rcases List.mem_cons.mp hmem with h | h
        · exact absurd h.symm hu
        · exact h
      have hnm' : (m + 1) ∉ rest := fun h => hnm (List.mem_cons_of_mem _ h)
      split
      · exact ih st hd hmem' hnm'
      · next hne =>
        obtain ⟨h1, _⟩ := relaxAdj_chain_nochange n k m u hkn st hd hne
          (fun _ => hu)
        exact ih _ h1 hmem' hnm'

theorem chainD_dget_le (n k m v : ℕ) :
    dget (chainD n k (m + 1)) v ≤ dget (chainD n k m) v := by
  rw [dget_chainD, dget_chainD]
  by_cases h : v < n ∧ v ≤ m ∧ v < k
  · rw [if_pos h, if_pos ⟨h.1, by omega, h.2.2⟩]
  · rw [if_neg h]
    exact le_top

theorem le_foldl_max (l : List ℕ) : ∀ (a x : ℕ), x ∈ l → x ≤ l.foldl max a := by
  induction l with
  | nil => intro a x hx; simp at hx
  | cons y ys ih =>
    intro a x hx
    rcases List.mem_cons.mp hx with rfl | hx
    · rw [List.foldl_cons]
      calc x ≤ max a x := le_max_right a x
      _ ≤ ys.foldl max (max a x) := by
          clear hx ih
          induction ys generalizing a x with
          | nil => exact le_refl _
          | cons z zs ihz =>
            rw [List.foldl_cons]
            calc max a x ≤ max (max a x) z := le_max_left _ _
            _ ≤ zs.foldl max (max (max a x) z) := ihz _ _
    · exact ih (max a y) x hx

/-- One superstep of the chain run for `P ≥ 2` while the frontier has not
reached the end: exactly the owner of the frontier improves one node. -/
theorem superstep_chain_update (n k m P : ℕ) (hkn : k ≤ n) (hP : 2 ≤ P)
    (hm : m < k - 1) (s : EngineState) (hd : s.distances = chainD n k m) :
    (superstep (chainGraph n k) P s).1.distances = chainD n k (m + 1) ∧
    (superstep (chainGraph n k) P s).2 ≠ 0 := by
  have hP' : 0 < P := by omega
  have hmn : m < n := by omega
  have hnc : (chainGraph n k).nodeCount = n := rfl
  have hlocal : ∀ r < P, (stepWorker (chainGraph n k) P r s.distances
      (s.workers.getD r ⟨0, 0, 0⟩)).1.distances =
        (if r = m % P then chainD n k (m + 1) else chainD n k m) ∧
      (stepWorker (chainGraph n k) P r s.distances
        (s.workers.getD r ⟨0, 0, 0⟩)).1.changed = (if r = m % P then true else false) := by
    intro r hr
    by_cases hrm : r = m % P
    · subst hrm
      rw [if_pos rfl, if_pos rfl]
      have hmem : m ∈ getRoundRobinPartition (chainGraph n k) (m % P) P := by
        refine (mem_getRoundRobinPartition _ _ _ _ hP' (Nat.mod_lt m hP')).mpr ?_
        rw [hnc]
        exact ⟨hmn, rfl⟩
      have hnmem : (m + 1) ∉ getRoundRobinPartition (chainGraph n k) (m % P) P := by
        intro hmem1
        have h1 := ((mem_getRoundRobinPartition _ _ _ _ hP'
          (Nat.mod_lt m hP')).mp hmem1).2
        have h2 : (m + 1) % P = m % P := h1
        have h3 : (m + 1) % P ≠ m % P := by
          intro he
          have hmod : Nat.ModEq P m (m + 1) := he.symm
          have hdvd := (Nat.modEq_iff_dvd' (Nat.le_succ m)).mp hmod
          have hone : m + 1 - m = 1 := by omega
          rw [hone] at hdvd
          have := Nat.le_of_dvd (by omega) hdvd
          omega
        exact h3 h2
      exact relaxPartition_chain_update n k m hkn hm _ _ hd hmem hnmem
    · rw [if_neg hrm, if_neg hrm]
      have hnmem : m ∉ getRoundRobinPartition (chainGraph n k) r P := by
        intro hmem1
        exact hrm (((mem_getRoundRobinPartition _ _ _ _ hP' hr).mp hmem1).2).symm
      exact relaxPartition_chain_nochange n k m hkn _ _ hd (fun _ => hnmem)
  constructor
  · rw [superstep_result]
    refine list_eq_of_dget _ _ ?_ ?_
    · rw [allreduceMin_length _ s.distances.length
        (by simp [List.range_eq_nil]; omega) (superstep_locals_length _ P s),
        hd, chainD_length, chainD_length]
    · intro v
      have hod := (hlocal (m % P) (Nat.mod_lt m hP')).1
      rw [if_pos rfl] at hod
      have howner : chainD n k (m + 1) ∈
          ((List.range P).map fun r => stepWorker (chainGraph n k) P r
            s.distances (s.workers.getD r ⟨0, 0, 0⟩)).map
              (fun pr => pr.1.distances) := by
        rw [List.mem_map]
        refine ⟨_, ?_, hod⟩
        rw [List.mem_map]
        exact ⟨m % P, by simpa using Nat.mod_lt m hP', rfl⟩
      have hle := allreduceMin_le _ s.distances.length
        (superstep_locals_length _ P s) _ howner v
      obtain ⟨l, hl, hval⟩ := allreduceMin_attained _ s.distances.length
        (by simp [List.range_eq_nil]; omega) (superstep_locals_length _ P s) v
      rw [List.mem_map] at hl
      obtain ⟨pr, hpr, rfl⟩ := hl
      rw [List.mem_map] at hpr
      obtain ⟨r, hr, rfl⟩ := hpr
      rw [List.mem_range] at hr
      rw [hval]
      have hrv := (hlocal r hr).1
      by_cases hrm : r = m % P
      · rw [hrv, if_pos hrm]
      · rw [hrv, if_neg hrm]
        rw [hrv, if_neg hrm] at hval
        refine le_antisymm ?_ (chainD_dget_le n k m v)
        rw [← hval]
        exact hle
  · rw [superstep_result]
    intro hzero
    have h1 : (1 : ℕ) ∈ ((List.range P).map fun r => stepWorker (chainGraph n k)
        P r s.distances (s.workers.getD r ⟨0, 0, 0⟩)).map
          (fun pr => if pr.1.changed then 1 else 0) := by
      rw [List.mem_map]
      refine ⟨_, ?_, by rw [(hlocal (m % P) (Nat.mod_lt m hP')).2, if_pos rfl]; rfl⟩
      rw [List.mem_map]
      exact ⟨m % P, by simpa using Nat.mod_lt m hP', rfl⟩
    have := le_foldl_max _ 0 1 h1
    omega

/-- One superstep of the chain run once the frontier has reached the end:
no worker changes anything and the max-reduced flag is 0. -/
theorem superstep_chain_converged (n k m P : ℕ) (hkn : k ≤ n) (hP : 1 ≤ P)
    (hm : ¬(m < k - 1)) (s : EngineState) (hd : s.distances = chainD n k m) :
    (superstep (chainGraph n k) P s).1.distances = chainD n k m ∧
    (superstep (chainGraph n k) P s).2 = 0 := by
  have hP' : 0 < P := hP
  have hlocal : ∀ r < P, (stepWorker (chainGraph n k) P r s.distances
      (s.workers.getD r ⟨0, 0, 0⟩)).1.distances = chainD n k m ∧
      (stepWorker (chainGraph n k) P r s.distances
        (s.workers.getD r ⟨0, 0, 0⟩)).1.changed = false := by
    intro r _
    exact relaxPartition_chain_nochange n k m hkn _ _ hd (fun hc => absurd hc hm)
  constructor
  · rw [superstep_result]
    refine list_eq_of_dget _ _ ?_ ?_
    · rw [allreduceMin_length _ s.distances.length
        (by simp [List.range_eq_nil]; omega) (superstep_locals_length _ P s),
        hd]
    · intro v
      obtain ⟨l, hl, hval⟩ := allreduceMin_attained _ s.distances.length
        (by simp [List.range_eq_nil]; omega) (superstep_locals_length _ P s) v
      rw [List.mem_map] at hl
      obtain ⟨pr, hpr, rfl⟩ := hl
      rw [List.mem_map] at hpr
      obtain ⟨r, hr, rfl⟩ := hpr
      rw [List.mem_range] at hr
      rw [hval, (hlocal r hr).1]
  · rw [superstep_result]
    refine (foldl_max_eq_zero _ 0).mpr ⟨rfl, ?_⟩
    intro x hx
    rw [List.mem_map] at hx
    obtain ⟨pr, hpr, rfl⟩ := hx
    rw [List.mem_map] at hpr
    obtain ⟨r, hr, rfl⟩ := hpr
    rw [List.mem_range] at hr
    rw [(hlocal r hr).2]
    simp

theorem initGlobal_chain (n k P : ℕ) (hk : 1 ≤ k) (hkn : k ≤ n) (hP : 1 ≤ P) :
    initGlobal (chainGraph n k) P 0 = chainD n k 0 := by
  have hs : 0 < (chainGraph n k).nodeCount := by
    show 0 < n
    omega
  rw [initGlobal_eq _ _ _ hP hs]
  refine list_eq_of_dget _ _ ?_ ?_
  · rw [List.length_set, List.length_replicate, chainD_length]
    rfl
  · intro v
    rw [dget_set, List.length_replicate, dget_chainD]
    have hnc : (chainGraph n k).nodeCount = n := rfl
    rw [hnc]
    by_cases hv : 0 = v ∧ v < n
    · rw [if_pos hv, if_pos (by omega)]
      rw [← hv.1]
      push_cast
      rfl
    · rw [if_neg hv, if_neg (by omega), dget_replicate]

theorem reportedIterations_const (s : EngineState) (j : ℕ)
    (hne : s.workers ≠ [])
    (hall : ∀ w ∈ s.workers, w.iterationsCompleted = j) :
    reportedIterations s = j := by
  rw [reportedIterations]
  have hmapne : (s.workers.map fun w => w.iterationsCompleted) ≠ [] := by
    intro h
    have := congrArg List.length h
    rw [List.length_map] at this
    exact hne (List.length_eq_zero.mp (by simpa using this))
  have hallx : ∀ x ∈ (s.workers.map fun w => w.iterationsCompleted), x = j := by
    intro x hx
    rw [List.mem_map] at hx
    obtain ⟨w, hw, rfl⟩ := hx
    exact hall w hw
  rw [foldl_max_const _ j 0 hallx hmapne, Nat.zero_max]

theorem bspLoop_chain (n k P : ℕ) (hkn : k ≤ n) (hk : 1 ≤ k) (hP : 2 ≤ P) :
    ∀ (fuel m j : ℕ) (s : EngineState), s.distances = chainD n k m →
      s.workers.length = P → (∀ w ∈ s.workers, w.iterationsCompleted = j) →
      m ≤ k - 1 → k - 1 - m < fuel →
      (bspLoop (chainGraph n k) P s fuel).2 = true ∧
      (∀ w ∈ (bspLoop (chainGraph n k) P s fuel).1.workers,
        w.iterationsCompleted = j + (k - 1 - m) + 1) ∧
      (bspLoop (chainGraph n k) P s fuel).1.workers.length = P := by
  intro fuel
  induction fuel with
  | zero =>
    intro m j s _ _ _ _ hf
    exact absurd hf (Nat.not_lt_zero _)
  | succ fuel ih =>
    intro m j s hd hwl hwj hm hf
    rw [bspLoop_succ]
    by_cases hfront : m < k - 1
    · obtain ⟨hd', hflag⟩ := superstep_chain_update n k m P hkn hP hfront s hd
      rw [if_neg hflag]
      have hrec := ih (m + 1) (j + 1) (superstep (chainGraph n k) P s).1 hd'
        (superstep_workers_length _ P s)
        (superstep_workers_iters _ P s j hwl hwj)
        (by omega) (by omega)
      refine ⟨hrec.1, ?_, hrec.2.2⟩
      intro w hw
      rw [hrec.2.1 w hw]
      omega
    · obtain ⟨hd', hflag⟩ :=
        superstep_chain_converged n k m P hkn (by omega) hfront s hd
      rw [if_pos hflag]
      refine ⟨rfl, ?_, superstep_workers_length _ P s⟩
      intro w hw
      rw [superstep_workers_iters _ P s j hwl hwj w hw]
      omega

/-- C4 (amended): on a directed unit-weight chain of `k ≥ 1` nodes inside a
graph of `nodeCount ≥ k` nodes, for every worker count `P ≥ 2` the loop
exits through the convergence break (never the iteration cap) and every
worker completes exactly `k` supersteps — the first `k-1` each propagate the
frontier one hop (global flag true) and superstep `k` is the unchanged
superstep whose max-reduced flag is 0. The claim's `k-1` count holds only
for the supersteps that still perform updates; the original claim is false
for `P = 1`, where in-superstep propagation converges faster (see the
counterexample). -/
theorem chain_convergence (n k P : ℕ) (hk : 1 ≤ k) (hkn : k ≤ n)
    (hP : 2 ≤ P) :
    (runEngine (chainGraph n k) P 0).2 = true ∧
    reportedIterations (runEngine (chainGraph n k) P 0).1 = k ∧
    (∀ w ∈ (runEngine (chainGraph n k) P 0).1.workers,
      w.iterationsCompleted = k) := by
  have hrun := bspLoop_chain n k P hkn hk hP (chainGraph n k).nodeCount 0 0
    (initState (chainGraph n k) P 0)
    (initGlobal_chain n k P hk hkn (by omega))
    (by simp [initState])
    (by
      intro w hw
      simp only [initState] at hw
      rw [List.eq_of_mem_replicate hw])
    (by omega)
    (by
      show k - 1 - 0 < n
      omega)
  have hiters : ∀ w ∈ (runEngine (chainGraph n k) P 0).1.workers,
      w.iterationsCompleted = k := by
    intro w hw
    rw [hrun.2.1 w hw]
    omega
  refine ⟨hrun.1, ?_, hiters⟩
  refine reportedIterations_const _ k ?_ hiters
  intro hnil
  have hnil' : (bspLoop (chainGraph n k) P (initState (chainGraph n k) P 0)
      (chainGraph n k).nodeCount).1.workers = [] := hnil
  have hlen := congrArg List.length hnil'
  rw [hrun.2.2] at hlen
  simp at hlen
  omega

theorem chain_convergence_witness :
    (1 ≤ 4 ∧ 4 ≤ 5 ∧ 2 ≤ 3) ∧
    ((runEngine (chainGraph 5 4) 3 0).2 = true ∧
    reportedIterations (runEngine (chainGraph 5 4) 3 0).1 = 4 ∧
    (∀ w ∈ (runEngine (chainGraph 5 4) 3 0).1.workers,
      w.iterationsCompleted = 4)) :=
  ⟨⟨by decide, by decide, by decide⟩,
   chain_convergence 5 4 3 (by decide) (by decide) (by decide)⟩

/-- C4 (counterexample): for the chain of `k = 4` nodes with `P = 1`, the
loop converges after only 2 supersteps (one superstep resolves the whole
chain because the partition is scanned in increasing order and local updates
are visible within the superstep; the second detects no change), not the
`k - 1 = 3` supersteps the claim requires for every `P ≥ 1`. -/
theorem chain_p1_counterexample :
    reportedIterations (runEngine (chainGraph 4 4) 1 0).1 = 2 ∧
    (runEngine (chainGraph 4 4) 1 0).2 = true ∧
    (2 : ℕ) ≠ 4 - 1 := by
  refine ⟨?_, ?_, by decide⟩
  · with_unfolding_all rfl
  · with_unfolding_all rfl

/-! ### C5: the single-node scenario -/

theorem relaxAdj_lu (u : ℕ) (es : List Edge) :
    ∀ st : RelaxResult, (relaxAdj u es st).changed = false →
      (relaxAdj u es st).localUpdates = st.localUpdates := by
  induction es with
  | nil => intro st _; rfl
  | cons e rest ih =>
    intro st h
    rw [relaxAdj_cons] at h ⊢
    split at h
    · next hc =>
      have := relaxAdj_changed_true u rest
        ⟨st.distances.set e.destination (dget st.distances u + (e.weight : Dist)),
         true, st.edgesRelaxed + 1, st.localUpdates + 1⟩ rfl
      rw [this] at h
      cases h
    · next hc =>
      rw [if_neg hc]
      exact ih _ h

theorem relaxPartition_lu (g : Graph) (part : List ℕ) :
    ∀ st : RelaxResult, (relaxPartition g part st).changed = false →
      (relaxPartition g part st).localUpdates = st.localUpdates := by
  induction part with
  | nil => intro st _; rfl
  | cons u rest ih =>
    intro st h
    rw [relaxPartition_cons] at h ⊢
    split at h
    · next htop =>
      rw [if_pos htop]
      exact ih st h
    · next htop =>
      rw [if_neg htop]
      have hAdjFalse : (relaxAdj u (g.getAdjacencyList u) st).changed = false :=
        (relaxPartition_changed_false g rest _ h).1
      rw [ih _ h, relaxAdj_lu u _ st hAdjFalse]

theorem getD_replicate_self {α : Type} (a : α) :
    ∀ (n i : ℕ), (List.replicate n a).getD i a = a := by
  intro n
  induction n with
  | zero => intro i; rfl
  | succ n ih =>
    intro i
    cases i with
    | zero => rfl
    | succ i => exact ih i

/-- C5 (amended): on the single-node graph with source = destination = 0 the
distance is 0 immediately after the INIT reduction and no superstep performs
any update (`localUpdates` totals 0); however the reported iteration count
is 1, not 0: the loop must execute one superstep to detect convergence and
`iterationsCompleted` is incremented before the check. -/
theorem single_node_scenario (P : ℕ) (hP : 1 ≤ P) :
    dget (initGlobal (chainGraph 1 1) P 0) 0 = 0 ∧
    (runEngine (chainGraph 1 1) P 0).2 = true ∧
    reportedIterations (runEngine (chainGraph 1 1) P 0).1 = 1 ∧
    totalLocalUpdates (runEngine (chainGraph 1 1) P 0).1 = 0 := by
  have hs : 0 < (chainGraph 1 1).nodeCount := by
    show (0 : ℕ) < 1
    omega
  have hinit : (initState (chainGraph 1 1) P 0).distances = chainD 1 1 0 :=
    initGlobal_chain 1 1 P (le_refl 1) (le_refl 1) hP
  have hconv := superstep_chain_converged 1 1 0 P (le_refl 1) hP (by omega)
    (initState (chainGraph 1 1) P 0) hinit
  have hrun : runEngine (chainGraph 1 1) P 0 =
      ((superstep (chainGraph 1 1) P (initState (chainGraph 1 1) P 0)).1,
       true) := by
    show bspLoop _ P _ 1 = _
    rw [bspLoop_succ, if_pos hconv.2]
  have hwl : (initState (chainGraph 1 1) P 0).workers.length = P := by
    simp [initState]
  have hwj : ∀ w ∈ (initState (chainGraph 1 1) P 0).workers,
      w.iterationsCompleted = 0 := by
    intro w hw
    simp only [initState] at hw
    rw [List.eq_of_mem_replicate hw]
  refine ⟨initGlobal_dget_source _ P 0 hP hs, by rw [hrun], ?_, ?_⟩
  · rw [hrun]
    refine reportedIterations_const _ 1 ?_ ?_
    · intro hnil
      have := congrArg List.length hnil
      rw [superstep_workers_length] at this
      simp at this
      omega
    · intro w hw
      rw [superstep_workers_iters _ P _ 0 hwl hwj w hw]
  · rw [hrun, totalLocalUpdates]
    refine List.sum_eq_zero ?_
    intro x hx
    rw [List.mem_map] at hx
    obtain ⟨w, hw, rfl⟩ := hx
    rw [superstep_result] at hw
    rw [List.mem_map] at hw
    obtain ⟨pr, hpr, rfl⟩ := hw
    rw [List.mem_map] at hpr
    obtain ⟨r, hr, rfl⟩ := hpr
    show (relaxPartition (chainGraph 1 1)
      (getRoundRobinPartition (chainGraph 1 1) r P)
      ⟨(initState (chainGraph 1 1) P 0).distances, false,
       ((initState (chainGraph 1 1) P 0).workers.getD r ⟨0, 0, 0⟩).edgesRelaxed,
       ((initState (chainGraph 1 1) P 0).workers.getD r ⟨0, 0, 0⟩).localUpdates⟩).localUpdates = 0
    have hw0 : (initState (chainGraph 1 1) P 0).workers.getD r ⟨0, 0, 0⟩ =
        (⟨0, 0, 0⟩ : WorkerStats) := getD_replicate_self _ P r
    have hnc := relaxPartition_chain_nochange 1 1 0 (le_refl 1)
      (getRoundRobinPartition (chainGraph 1 1) r P)
      ⟨(initState (chainGraph 1 1) P 0).distances, false,
       ((initState (chainGraph 1 1) P 0).workers.getD r ⟨0, 0, 0⟩).edgesRelaxed,
       ((initState (chainGraph 1 1) P 0).workers.getD r ⟨0, 0, 0⟩).localUpdates⟩
      hinit (by omega)
    rw [relaxPartition_lu _ _ _ hnc.2, hw0]

theorem single_node_scenario_witness :
    1 ≤ 3 ∧
    (dget (initGlobal (chainGraph 1 1) 3 0) 0 = 0 ∧
    (runEngine (chainGraph 1 1) 3 0).2 = true ∧
    reportedIterations (runEngine (chainGraph 1 1) 3 0).1 = 1 ∧
    totalLocalUpdates (runEngine (chainGraph 1 1) 3 0).1 = 0) :=
  ⟨by decide, single_node_scenario 3 (by decide)⟩

/-- C5 (counterexample): on the single-node graph the engine reports an
iteration count of 1, not the 0 the claim states: the convergence-detecting
superstep increments `iterationsCompleted` before the global flag check. -/
theorem single_node_counterexample :
    reportedIterations (runEngine (chainGraph 1 1) 1 0).1 = 1 ∧
    (1 : ℕ) ≠ 0 := by
  refine ⟨?_, by decide⟩
  with_unfolding_all rfl

/-! ### C6: no path from source to destination -/

theorem unreached_final_top (g : Graph) (P source v : ℕ) (hWF : g.WF)
    (hP : 0 < P) (hs : source < g.nodeCount)
    (hnw : ¬∃ l c, Walk g source l v c) :
    dget (runEngine g P source).1.distances v = ⊤ := by
  have hDInv : DInv g source (runEngine g P source).1.distances :=
    bspLoop_DInv g P source hWF g.nodeCount (initState g P source)
      (initGlobal_DInv g P source hP hs)
  rcases hDInv v with h | ⟨l, c, hw, _⟩
  · exact h
  · exact absurd ⟨l, c, hw⟩ hnw

theorem gScenB_no_walk : ¬∃ l c, Walk gScenB 0 l 3 c := by
  have key : ∀ {u : ℕ} {l : List ℕ} {t : ℕ} {c : ℚ}, Walk gScenB u l t c →
      u = 0 ∨ u = 1 → t = 0 ∨ t = 1 := by
    intro u l t c hw
    induction hw with
    | nil v hv => intro h; exact h
    | cons v e l t c hv he hsub ih =>
      intro h
      apply ih
      rcases h with rfl | rfl
      · have he' : e = ⟨1, 1⟩ := by
          simpa [gScenB, Graph.getAdjacencyList] using he
        rw [he']
        right
        rfl
      · have he' : e = ⟨0, 1⟩ := by
          simpa [gScenB, Graph.getAdjacencyList] using he
        rw [he']
        left
        rfl
  rintro ⟨l, c, hw⟩
  rcases key hw (Or.inl rfl) with h | h <;> simp at h

/-- C6 (amended): when no path from source to destination exists, the
computed distance for the destination is still `+∞` when the loop ends; but
the result is NOT reported as "no path": rank 0 prints the numeric Distance
line unconditionally, rendering the infinity as `inf`. -/
theorem no_path_distance (g : Graph) (P source destination : ℕ)
    (hWF : g.WF) (hP : 1 ≤ P) (hs : source < g.nodeCount)
    (hnw : ¬∃ l c, Walk g source l destination c) :
    dget (runEngine g P source).1.distances destination = ⊤ ∧
    distanceLine (dget (runEngine g P source).1.distances destination) =
      "  Distance: inf" := by
  have h := unreached_final_top g P source destination hWF hP hs hnw
  refine ⟨h, ?_⟩
  rw [h]
  rfl

theorem no_path_distance_witness :
    (gScenB.WF ∧ 1 ≤ 2 ∧ 0 < gScenB.nodeCount ∧
      ¬∃ l c, Walk gScenB 0 l 3 c) ∧
    (dget (runEngine gScenB 2 0).1.distances 3 = ⊤ ∧
     distanceLine (dget (runEngine gScenB 2 0).1.distances 3) =
       "  Distance: inf") :=
  ⟨⟨by decide, by decide, by decide, gScenB_no_walk⟩,
   no_path_distance gScenB 2 0 3 (by decide) (by decide) (by decide)
     gScenB_no_walk⟩

/-- C6 (counterexample): on scenario B (components `{0,1}` and `{2,3}`,
source 0, destination 3) the distance stays `+∞`, but what the program
reports is the unconditional numeric Distance line rendering the infinity as
`inf`; it is not the explicit "no path" report the claim describes. -/
theorem no_path_line_counterexample :
    dget (runEngine gScenB 2 0).1.distances 3 = ⊤ ∧
    distanceLine (dget (runEngine gScenB 2 0).1.distances 3) =
      "  Distance: inf" ∧
    ("  Distance: inf" : String) ≠ "no path" := by
  have h := unreached_final_top gScenB 2 0 3 (by decide) (by decide)
    (by decide) gScenB_no_walk
  refine ⟨h, ?_, by decide⟩
  rw [h]
  rfl

/-! ### C7, C8: the loader -/

/-- Model of the C++ input stream state: remaining whitespace-separated
tokens plus the fail bit. -/
structure IStream where
  tokens : List String
  failed : Bool
deriving DecidableEq

/-- `file >> intVar` under C++11 semantics: on EOF or an unparsable token
the value is 0 and the fail bit is set; once failed, every extraction
yields 0. -/
def readInt (st : IStream) : Int × IStream :=
  if st.failed then (0, st)
  else
    match st.tokens with
    | [] => (0, ⟨[], true⟩)
    | t :: rest =>
      match t.toInt? with
      | some v => (v, ⟨rest, false⟩)
      | none => (0, ⟨t :: rest, true⟩)

/-- Decimal fraction parser for non-negative weight tokens: `"12"` or
`"12.5"`. (The model covers tokens that are wholly numeric; partially
numeric tokens like `"12ab"` are out of scope of every claim.) -/
def parseRatNonneg (s : String) : Option ℚ :=
  match s.splitOn "." with
  | [a] => (a.toNat?).map (fun v => (v : ℚ))
  | [a, b] =>
    match a.toNat?, b.toNat? with
    | some na, some nb => some ((na : ℚ) + (nb : ℚ) / (10 : ℚ) ^ b.length)
    | _, _ => none
  | _ => none

/-- `file >> doubleVar` token parse, with an optional leading minus sign. -/
def parseRat (s : String) : Option ℚ :=
  if s.startsWith "-" then (parseRatNonneg (s.drop 1)).map Neg.neg
  else parseRatNonneg s

/-- `file >> doubleVar` under the same stream semantics as `readInt`. -/
def readRat (st : IStream) : ℚ × IStream :=
  if st.failed then (0, st)
  else
    match st.tokens with
    | [] => (0, ⟨[], true⟩)
    | t :: rest =>
      match parseRat t with
      | some v => (v, ⟨rest, false⟩)
      | none => (0, ⟨t :: rest, true⟩)

/-- The edge-reading loop of Graph::loadFromFile:
`for (i = 0; i < numEdges; i++) { file >> from >> to >> weight; addEdge; }`. -/
def loadEdges (g : Graph) : ℕ → IStream → Graph × IStream
  | 0, st => (g, st)
  | i + 1, st =>
    let p1 := readInt st
    let p2 := readInt p1.2
    let p3 := readRat p2.2
    loadEdges (g.addEdge p1.1 p2.1 p3.1) i p3.2

/-- Graph::loadFromFile over a tokenized text source. `none` models an
unreadable file (`!file.is_open()`); `some tokens` models the whitespace-
separated fields of a readable file. A negative declared edge count runs the
loop zero times just as the C++ `for` does; a negative declared node count
(which would crash the C++ resize) is clamped and out of the model's scope.
Note the source checks nothing after `is_open()`: header extraction failure
is not detected. -/
def Graph.loadFromFile (g : Graph) (file : Option (List String)) :
    Bool × Graph :=
  match file with
  | none => (false, g)
  | some tokens =>
    let p1 := readInt ⟨tokens, false⟩
    let p2 := readInt p1.2
    let g1 := g.setNodeCount p1.1.toNat
    (true, (loadEdges g1 p2.1.toNat p2.2).1)

/-- main.cpp: every worker loads the same file, and a failed load calls
`MPI_Abort(MPI_COMM_WORLD, 1)`, killing the whole cohort. -/
def cohortAborts (file : Option (List String)) : Bool :=
  !(Graph.empty.loadFromFile file).1

/-- C7 (amended): loading fails exactly when the backing source is
unreadable; on failure the graph value is untouched (all-or-nothing), and in
main a load failure aborts the entire cohort. Contrary to the claim, a
malformed header is not detected (see the counterexample): extraction
failure silently yields zero counts and the load succeeds. -/
theorem load_failure_iff_unreadable (g : Graph)
    (file : Option (List String)) :
    ((g.loadFromFile file).1 = false ↔ file = none) ∧
    (g.loadFromFile none = (false, g)) ∧
    (cohortAborts file = true ↔ file = none) := by
  have hfst : ∀ (g' : Graph) (f : Option (List String)),
      (g'.loadFromFile f).1 = false ↔ f = none := by
    intro g' f
    cases f with
    | none => simp [Graph.loadFromFile]
    | some toks => simp [Graph.loadFromFile]
  refine ⟨hfst g file, rfl, ?_⟩
  rw [cohortAborts, Bool.not_eq_true']
  exact hfst Graph.empty file

/-- C7 (counterexample): a file whose header is malformed (`"abc"` is not a
number) does not make loading fail, where the claim requires an error: the
load returns success with an empty graph. -/
theorem malformed_header_loads_counterexample :
    (Graph.empty.loadFromFile (some ["abc", "3", "0", "1", "2.5"])).1 =
      true ∧
    (Graph.empty.loadFromFile
      (some ["abc", "3", "0", "1", "2.5"])).2.nodeCount = 0 ∧
    (Graph.empty.loadFromFile
      (some ["abc", "3", "0", "1", "2.5"])).2.edgeCount = 0 := by
  refine ⟨?_, ?_, ?_⟩ <;> with_unfolding_all rfl

/-- C8: an `addEdge` call whose endpoint lies outside `[0, nodeCount)`
leaves the graph completely unchanged — same adjacency lists, same
`edgeCount`, no error signalled; consequently a loaded graph can store fewer
edges than its header declared: the file `2 1 / 0 5 1.0` declares one edge
but zero edges are stored. -/
theorem addEdge_out_of_range (g : Graph) (f t : Int) (w : ℚ)
    (h : ¬(0 ≤ f ∧ f < (g.nodeCount : Int) ∧ 0 ≤ t ∧
        t < (g.nodeCount : Int))) :
    g.addEdge f t w = g ∧
    (Graph.empty.loadFromFile (some ["2", "1", "0", "5", "1.0"])).2.edgeCount
      = 0 ∧
    (0 : ℕ) < 1 := by
  refine ⟨?_, ?_, by decide⟩
  · rw [Graph.addEdge, if_neg h]
  · with_unfolding_all rfl

theorem addEdge_out_of_range_witness :
    (¬(0 ≤ (0 : Int) ∧ (0 : Int) < (gPath2.nodeCount : Int) ∧
        0 ≤ (5 : Int) ∧ (5 : Int) < (gPath2.nodeCount : Int))) ∧
    (gPath2.addEdge 0 5 1 = gPath2 ∧
     (Graph.empty.loadFromFile
       (some ["2", "1", "0", "5", "1.0"])).2.edgeCount = 0 ∧
     (0 : ℕ) < 1) :=
  ⟨by decide, addEdge_out_of_range gPath2 0 5 1 (by decide)⟩

/-! ### The sequential oracle: sequentialDijkstra

Embedding of `PathResult sequentialDijkstra(const Graph&, int, int)` from
sequential_dijkstra.cpp (the second translation unit concatenated into
graph_generator.cpp). The C++ `std::priority_queue` with the `greater`
comparator (min-heap on `fScore`) is modelled as a multiset of pending
entries with a pop of a minimal element; which of several equal-key entries
`top()` yields is unspecified in C++, and the model fixes the first minimal
one. The lazy-deletion `visited` array, the relaxation body re-reading
`distances[currentNode]` at every edge, the marking of the popped node
before the early-exit check, and the predecessor array are embedded
one-to-one. The unbounded `while (!pq.empty())` loop is driven by fuel
`1 + Σ degrees`, which the verification proves is never exhausted: every
iteration pops one entry, and at most `1 + Σ degrees` entries are ever
pushed because only the first (unvisited) processing of a node pushes. -/

/-- PQElement of Graph.h: `(int nodeId, double distance, double fScore)`,
min-heap ordered by `fScore`. -/
structure PQElement where
  nodeId : ℕ
  distance : Dist
  fScore : Dist
deriving DecidableEq

/-- Local state of sequentialDijkstra: the four mutable containers. -/
structure DijkstraState where
  distances : List Dist
  predecessors : List Int
  visited : List Bool
  pq : List PQElement
deriving DecidableEq

/-- Read of `visited[v]` made total (`false` outside the vector). -/
def vget (l : List Bool) (v : ℕ) : Bool := l.getD v false

/-- `pq.top(); pq.pop()` of the min-heap: removes one minimal-`fScore`
entry (the first such, standing in for the heap's unspecified tie order). -/
def popMin : List PQElement → Option (PQElement × List PQElement)
  | [] => none
  | e :: rest =>
    match popMin rest with
    | none => some (e, [])
    | some (m, rest') =>
      if m.fScore < e.fScore then some (m, e :: rest') else some (e, rest)

/-- The neighbor-exploration loop of sequentialDijkstra:
`for (const Edge& edge : edges) { ... if (newDistance < distances[neighbor])
{ distances[neighbor] = ...; predecessors[neighbor] = currentNode;
pq.push(...); } }`. `distances[currentNode]` is re-read at every edge. -/
def relaxDijkstra (g : Graph) (u : ℕ) : List Edge → DijkstraState → DijkstraState
  | [], s => s
  | e :: rest, s =>
    let newDistance := dget s.distances u + (e.weight : Dist)
    if newDistance < dget s.distances e.destination then
      relaxDijkstra g u rest
        ⟨s.distances.set e.destination newDistance,
         s.predecessors.set e.destination (u : Int),
         s.visited,
         s.pq ++ [⟨e.destination, newDistance, newDistance⟩]⟩
    else
      relaxDijkstra g u rest s

/-- The `while (!pq.empty())` loop of sequentialDijkstra: pop the minimum,
skip if already visited, mark visited, break early when the destination is
reached, otherwise relax the popped node's neighbors. -/
def dijkstraLoop (g : Graph) (destination : ℕ) :
    ℕ → DijkstraState → DijkstraState
  | 0, s => s
  | fuel + 1, s =>
    match popMin s.pq with
    | none => s
    | some (current, pq') =>
      if vget s.visited current.nodeId = true then
        dijkstraLoop g destination fuel
          ⟨s.distances, s.predecessors, s.visited, pq'⟩
      else
        if current.nodeId = destination then
          ⟨s.distances, s.predecessors,
           s.visited.set current.nodeId true, pq'⟩
        else
          dijkstraLoop g destination fuel
            (relaxDijkstra g current.nodeId
              (g.getAdjacencyList current.nodeId)
              ⟨s.distances, s.predecessors,
               s.visited.set current.nodeId true, pq'⟩)

/-- Initial state: all distances `+∞` except `distances[source] = 0`,
predecessors all `-1`, nothing visited, the source pushed with key 0. -/
def dijkstraInit (g : Graph) (source : ℕ) : DijkstraState :=
  ⟨(List.replicate g.nodeCount (⊤ : Dist)).set source 0,
   List.replicate g.nodeCount (-1 : Int),
   List.replicate g.nodeCount false,
   [⟨source, 0, 0⟩]⟩

/-- Total number of stored directed edges (the sum of adjacency-list
lengths); `1 + totalAdjSize` bounds the pushes of any run. -/
def totalAdjSize (g : Graph) : ℕ := (g.adj.map List.length).sum

/-- The path-reconstruction loop
`while (current != -1) { reversePath.push_back(current); current =
predecessors[current]; }`; in any actual run the predecessor chain is
acyclic, so fuel `nodeCount + 1` covers it. -/
def buildPath (predecessors : List Int) : ℕ → Int → List Int
  | 0, _ => []
  | fuel + 1, current =>
    if current = -1 then []
    else current :: buildPath predecessors fuel
      (predecessors.getD current.toNat (-1))

/-- PathResult of Graph.h (the wall-clock field is set by the caller and
stays at its default here). -/
structure PathResult where
  path : List Int
  totalDistance : Dist
  found : Bool
  executionTime : ℚ
deriving DecidableEq

/-- sequentialDijkstra of sequential_dijkstra.cpp: run the loop, then build
the `PathResult` — `found`/`totalDistance`/`path` are filled exactly when
`distances[destination] != infinity`. -/
def sequentialDijkstra (g : Graph) (source destination : ℕ) : PathResult :=
  let final := dijkstraLoop g destination (1 + totalAdjSize g)
    (dijkstraInit g source)
  if dget final.distances destination ≠ ⊤ then
    ⟨(buildPath final.predecessors (g.nodeCount + 1) (destination : Int)).reverse,
     dget final.distances destination, true, 0⟩
  else
    ⟨[], ⊤, false, 0⟩

/-! ### popMin: permutation, minimality -/

theorem popMin_cons_none (e : PQElement) (rest : List PQElement)
    (hr : popMin rest = none) : popMin (e :: rest) = some (e, []) := by
  rw [popMin, hr]

theorem popMin_cons_some_lt (e : PQElement) (rest : List PQElement)
    (m : PQElement) (rest' : List PQElement)
    (hr : popMin rest = some (m, rest')) (hlt : m.fScore < e.fScore) :
    popMin (e :: rest) = some (m, e :: rest') := by
  rw [popMin, hr]
  exact if_pos hlt

theorem popMin_cons_some_ge (e : PQElement) (rest : List PQElement)
    (m : PQElement) (rest' : List PQElement)
    (hr : popMin rest = some (m, rest')) (hge : ¬ m.fScore < e.fScore) :
    popMin (e :: rest) = some (e, rest) := by
  rw [popMin, hr]
  exact if_neg hge

theorem popMin_eq_none (l : List PQElement) (h : popMin l = none) : l = [] := by
  cases l with
  | nil => rfl
  | cons e rest =>
    exfalso
    rcases hr : popMin rest with _ | ⟨m, rest'⟩
    · rw [popMin_cons_none e rest hr] at h
      exact Option.noConfusion h
    · by_cases hlt : m.fScore < e.fScore
      · rw [popMin_cons_some_lt e rest m rest' hr hlt] at h
        exact Option.noConfusion h
      · rw [popMin_cons_some_ge e rest m rest' hr hlt] at h
        exact Option.noConfusion h

theorem popMin_perm (l : List PQElement) :
    ∀ m r, popMin l = some (m, r) → l.Perm (m :: r) := by
  induction l with
  | nil => intro m r h; simp [popMin] at h
  | cons e rest ih =>
    intro m r h
    rcases hr : popMin rest with _ | ⟨m', rest'⟩
    · rw [popMin_cons_none e rest hr] at h
      simp at h
      obtain ⟨rfl, rfl⟩ := h
      have hnil : rest = [] := popMin_eq_none rest hr
      subst hnil
      exact List.Perm.refl _
    · have hperm := ih m' rest' hr
      by_cases hlt : m'.fScore < e.fScore
      · rw [popMin_cons_some_lt e rest m' rest' hr hlt] at h
        simp at h
        obtain ⟨rfl, rfl⟩ := h
        exact List.Perm.trans (List.Perm.cons e hperm) (List.Perm.swap m' e rest')
      · rw [popMin_cons_some_ge e rest m' rest' hr hlt] at h
        simp at h
        obtain ⟨rfl, rfl⟩ := h
        exact List.Perm.refl _

theorem popMin_min (l : List PQElement) :
    ∀ m r, popMin l = some (m, r) → ∀ x ∈ l, m.fScore ≤ x.fScore := by
  induction l with
  | nil => intro m r h; simp [popMin] at h
  | cons e rest ih =>
    intro m r h x hx
    rcases hr : popMin rest with _ | ⟨m', rest'⟩
    · rw [popMin_cons_none e rest hr] at h
      simp at h
      obtain ⟨rfl, _⟩ := h
      have hnil : rest = [] := popMin_eq_none rest hr
      subst hnil
      simp at hx
      rw [hx]
    · rcases List.mem_cons.mp hx with rfl | hx'
      · by_cases hlt : m'.fScore < x.fScore
        · rw [popMin_cons_some_lt x rest m' rest' hr hlt] at h
          simp at h
          obtain ⟨rfl, _⟩ := h
          exact le_of_lt hlt
        · rw [popMin_cons_some_ge x rest m' rest' hr hlt] at h
          simp at h
          obtain ⟨rfl, _⟩ := h
          exact le_refl _
      · by_cases hlt : m'.fScore < e.fScore
        · rw [popMin_cons_some_lt e rest m' rest' hr hlt] at h
          simp at h
          obtain ⟨rfl, _⟩ := h
          exact ih m' rest' hr x hx'
        · rw [popMin_cons_some_ge e rest m' rest' hr hlt] at h
          simp at h
          obtain ⟨rfl, _⟩ := h
          exact le_trans (not_lt.mp hlt) (ih m' rest' hr x hx')

theorem popMin_mem (l : List PQElement) (m : PQElement) (r : List PQElement)
    (h : popMin l = some (m, r)) : m ∈ l :=
  (popMin_perm l m r h).mem_iff.mpr (List.mem_cons_self m r)

theorem popMin_length (l : List PQElement) (m : PQElement)
    (r : List PQElement) (h : popMin l = some (m, r)) :
    l.length = r.length + 1 := by
  have := (popMin_perm l m r h).length_eq
  simpa using this

theorem popMin_mem_of_rest (l : List PQElement) (m : PQElement)
    (r : List PQElement) (h : popMin l = some (m, r)) :
    ∀ x ∈ r, x ∈ l := fun x hx =>
  (popMin_perm l m r h).mem_iff.mpr (List.mem_cons_of_mem m hx)

theorem popMin_mem_cases (l : List PQElement) (m : PQElement)
    (r : List PQElement) (h : popMin l = some (m, r)) :
    ∀ x ∈ l, x = m ∨ x ∈ r := fun x hx =>
  List.mem_cons.mp ((popMin_perm l m r h).mem_iff.mp hx)

/-! ### vget and relaxDijkstra basics -/

theorem vget_set (d : List Bool) (i j : ℕ) (a : Bool) :
    vget (d.set i a) j = if i = j ∧ j < d.length then a else vget d j := by
  induction d generalizing i j with
  | nil => simp [List.set, vget]
  | cons b l ih =>
    cases i with
    | zero =>
      cases j with
      | zero => simp [vget]
      | succ j => simp [vget]
    | succ i =>
      cases j with
      | zero => simp [vget]
      | succ j => simpa [vget, List.getD] using ih i j

theorem vget_replicate (n j : ℕ) : vget (List.replicate n false) j = false := by
  induction n generalizing j with
  | zero => rfl
  | succ n ih =>
    cases j with
    | zero => rfl
    | succ j => simpa [List.replicate, vget, List.getD] using ih j

theorem relaxDijkstra_cons (g : Graph) (u : ℕ) (e : Edge) (rest : List Edge)
    (s : DijkstraState) :
    relaxDijkstra g u (e :: rest) s =
      if dget s.distances u + (e.weight : Dist) < dget s.distances e.destination
      then
        relaxDijkstra g u rest
          ⟨s.distances.set e.destination
            (dget s.distances u + (e.weight : Dist)),
           s.predecessors.set e.destination (u : Int),
           s.visited,
           s.pq ++ [⟨e.destination,
             dget s.distances u + (e.weight : Dist),
             dget s.distances u + (e.weight : Dist)⟩]⟩
      else relaxDijkstra g u rest s := rfl

theorem relaxDijkstra_dlength (g : Graph) (u : ℕ) (es : List Edge) :
    ∀ s : DijkstraState,
      (relaxDijkstra g u es s).distances.length = s.distances.length := by
  induction es with
  | nil => intro s; rfl
  | cons e rest ih =>
    intro s
    rw [relaxDijkstra_cons]
    split
    · rw [ih]; simp
    · rw [ih]

theorem relaxDijkstra_visited_list (g : Graph) (u : ℕ) (es : List Edge) :
    ∀ s : DijkstraState, (relaxDijkstra g u es s).visited = s.visited := by
  induction es with
  | nil => intro s; rfl
  | cons e rest ih =>
    intro s
    rw [relaxDijkstra_cons]
    split
    · rw [ih]
    · rw [ih]

theorem relaxDijkstra_dget_le (g : Graph) (u : ℕ) (es : List Edge) :
    ∀ (s : DijkstraState) (v : ℕ),
      dget (relaxDijkstra g u es s).distances v ≤ dget s.distances v := by
  induction es with
  | nil => intro s v; exact le_refl _
  | cons e rest ih =>
    intro s v
    rw [relaxDijkstra_cons]
    split
    · next h =>
      exact le_trans (ih _ v) (dget_set_le _ _ _ _ (le_of_lt h))
    · exact ih _ v

theorem relaxDijkstra_le_edge (g : Graph) (u : ℕ) (es : List Edge) :
    ∀ (s : DijkstraState) (e : Edge), e ∈ es →
      e.destination < s.distances.length →
      dget (relaxDijkstra g u es s).distances e.destination ≤
        dget s.distances u + (e.weight : Dist) := by
  induction es with
  | nil => intro s e he; simp at he
  | cons f rest ih =>
    intro s e he hlen
    rw [relaxDijkstra_cons]
    rcases List.mem_cons.mp he with rfl | hmem
    · split
      · next h =>
        refine le_trans (relaxDijkstra_dget_le _ _ _ _ _) ?_
        show dget (s.distances.set e.destination
          (dget s.distances u + (e.weight : Dist))) e.destination ≤ _
        rw [dget_set, if_pos ⟨rfl, hlen⟩]
      · next h =>
        exact le_trans (relaxDijkstra_dget_le _ _ _ _ _) (not_lt.mp h)
    · split
      · next h =>
        have hstep : dget (s.distances.set f.destination
            (dget s.distances u + (f.weight : Dist))) u ≤ dget s.distances u :=
          dget_set_le _ _ _ _ (le_of_lt h)
        refine le_trans (ih _ e hmem (by simpa using hlen)) ?_
        exact add_le_add_right hstep _
      · exact ih _ e hmem hlen

theorem relaxDijkstra_DInv (g : Graph) (hWF : g.WF) (source u : ℕ) :
    ∀ (es : List Edge), (∀ e ∈ es, e ∈ g.getAdjacencyList u) →
      ∀ s : DijkstraState, DInv g source s.distances →
        DInv g source (relaxDijkstra g u es s).distances := by
  intro es
  induction es with
  | nil => intro _ s h; exact h
  | cons e rest ih =>
    intro hes s hInv
    rw [relaxDijkstra_cons]
    split
    · next hlt =>
      refine ih (fun f hf => hes f (by simp [hf])) _ ?_
      intro v
      show dget (s.distances.set e.destination
        (dget s.distances u + (e.weight : Dist))) v = ⊤ ∨ _
      rw [dget_set]
      split
      · next hcond =>
        right
        have hne : dget s.distances u + (e.weight : Dist) ≠ ⊤ := ne_top_of_lt hlt
        have hu : dget s.distances u ≠ ⊤ := by
          intro h
          rw [h, WithTop.top_add] at hne
          exact hne rfl
        rcases hInv u with h | ⟨l, c, hw, hc⟩
        · exact absurd h hu
        · have hsnoc := walk_snoc hWF hw e (hes e (by simp))
          rw [hcond.1] at hsnoc
          refine ⟨l ++ [v], c + e.weight, hsnoc, ?_⟩
          rw [hc]
          push_cast
          rfl
      · exact hInv v
    · next =>
      exact ih (fun f hf => hes f (by simp [hf])) _ hInv

theorem relaxDijkstra_pq_length (g : Graph) (u : ℕ) (es : List Edge) :
    ∀ s : DijkstraState,
      (relaxDijkstra g u es s).pq.length ≤ s.pq.length + es.length := by
  induction es with
  | nil => intro s; simp [relaxDijkstra]
  | cons e rest ih =>
    intro s
    rw [relaxDijkstra_cons]
    split
    · refine le_trans (ih _) ?_
      simp only [List.length_append, List.length_cons, List.length_nil]
      omega
    · refine le_trans (ih _) ?_
      simp only [List.length_cons]
      omega

theorem relaxDijkstra_pq_mem (g : Graph) (u : ℕ) (es : List Edge) :
    ∀ (s : DijkstraState) (q : PQElement), q ∈ s.pq →
      q ∈ (relaxDijkstra g u es s).pq := by
  induction es with
  | nil => intro s q hq; exact hq
  | cons e rest ih =>
    intro s q hq
    rw [relaxDijkstra_cons]
    split
    · exact ih _ q (List.mem_append_left _ hq)
    · exact ih _ q hq

/-! ### Dijkstra loop invariants -/

/-- Queue soundness: every pending entry names an in-range node and is an
upper bound of that node's current tentative distance (entries are pushed
with the distance they had when relaxed, which may since have improved). -/
def PQInv (g : Graph) (d : List Dist) (pq : List PQElement) : Prop :=
  ∀ q ∈ pq, q.nodeId < g.nodeCount ∧ dget d q.nodeId ≤ q.fScore

/-- Queue completeness: every unvisited node with a finite tentative
distance has a pending entry carrying exactly that distance. -/
def BInv (g : Graph) (d : List Dist) (visited : List Bool) (pq : List PQElement) : Prop :=
  ∀ v, v < g.nodeCount → dget d v ≠ ⊤ → vget visited v = false →
    ∃ q ∈ pq, q.nodeId = v ∧ q.fScore = dget d v

/-- Visited nodes are fully relaxed: each of their outgoing edges imposes no
further improvement. -/
def AInv (g : Graph) (d : List Dist) (visited : List Bool) : Prop :=
  ∀ u, vget visited u = true → ∀ e ∈ g.getAdjacencyList u,
    dget d e.destination ≤ dget d u + (e.weight : Dist)

/-- Visited nodes hold optimal distances: no walk from the source beats a
visited node's entry. -/
def HInv (g : Graph) (source : ℕ) (d : List Dist) (visited : List Bool) : Prop :=
  ∀ w, vget visited w = true → ∀ (l : List ℕ) (c : ℚ), Walk g source l w c →
    dget d w ≤ (c : Dist)

theorem HInv_mono (g : Graph) (source : ℕ) (d d' : List Dist) (visited : List Bool)
    (hle : ∀ v, dget d' v ≤ dget d v) (hH : HInv g source d visited) :
    HInv g source d' visited :=
  fun w hw l c hwalk => le_trans (hle w) (hH w hw l c hwalk)

theorem DInv_set_edge (g : Graph) (hWF : g.WF) (source u : ℕ) (e : Edge)
    (he : e ∈ g.getAdjacencyList u) (d : List Dist) (hD : DInv g source d)
    (hne : dget d u + (e.weight : Dist) ≠ ⊤) :
    DInv g source (d.set e.destination (dget d u + (e.weight : Dist))) := by
  intro v
  rw [dget_set]
  split
  · next hcond =>
    right
    have hu : dget d u ≠ ⊤ := by
      intro h
      rw [h, WithTop.top_add] at hne
      exact hne rfl
    rcases hD u with h | ⟨l, c, hwalk, hc⟩
    · exact absurd h hu
    · have hsnoc := walk_snoc hWF hwalk e he
      rw [hcond.1] at hsnoc
      refine ⟨l ++ [v], c + e.weight, hsnoc, ?_⟩
      rw [hc]
      push_cast
      rfl
  · exact hD v

/-- Relaxing the adjacency list of a node never changes the entry of a
visited node: the improvement test cannot fire against a node whose entry is
already optimal (`HInv`), because the candidate value is itself a walk
weight (`DInv` plus the relaxed edge). -/
theorem relaxDijkstra_visited_unchanged (g : Graph) (hWF : g.WF) (source u : ℕ) :
    ∀ (es : List Edge), (∀ e ∈ es, e ∈ g.getAdjacencyList u) →
      ∀ s : DijkstraState, DInv g source s.distances →
        HInv g source s.distances s.visited →
        ∀ w, vget s.visited w = true →
          dget (relaxDijkstra g u es s).distances w = dget s.distances w := by
  intro es
  induction es with
  | nil => intro _ s _ _ w _; rfl
  | cons e rest ih =>
    intro hes s hD hH w hw
    rw [relaxDijkstra_cons]
    split
    · next hlt =>
      have hnv : vget s.visited e.destination = false := by
        cases hb : vget s.visited e.destination
        · rfl
        · exfalso
          have hne : dget s.distances u + (e.weight : Dist) ≠ ⊤ := ne_top_of_lt hlt
          have hu : dget s.distances u ≠ ⊤ := by
            intro h
            rw [h, WithTop.top_add] at hne
            exact hne rfl
          rcases hD u with h | ⟨l, c, hwalk, hc⟩
          · exact hu h
          · have hsnoc := walk_snoc hWF hwalk e (hes e (by simp))
            have hb2 := hH e.destination hb (l ++ [e.destination]) (c + e.weight) hsnoc
            rw [hc] at hlt
            have hcast : ((c + e.weight : ℚ) : Dist) = (c : Dist) + (e.weight : Dist) := by
              push_cast
              rfl
            rw [hcast] at hb2
            exact absurd hb2 (not_le.mpr hlt)
      have hle : ∀ v, dget (s.distances.set e.destination
          (dget s.distances u + (e.weight : Dist))) v ≤ dget s.distances v :=
        fun v => dget_set_le _ _ _ _ (le_of_lt hlt)
      have hD' := DInv_set_edge g hWF source u e (hes e (by simp)) s.distances hD
        (ne_top_of_lt hlt)
      have hH' := HInv_mono g source s.distances _ s.visited hle hH
      have hih := ih (fun f hf => hes f (by simp [hf]))
        ⟨s.distances.set e.destination (dget s.distances u + (e.weight : Dist)),
         s.predecessors.set e.destination (u : Int), s.visited,
         s.pq ++ [(⟨e.destination, dget s.distances u + (e.weight : Dist),
           dget s.distances u + (e.weight : Dist)⟩ : PQElement)]⟩ hD' hH' w hw
      rw [hih]
      rw [dget_set]
      split
      · next hc =>
        exfalso
        rw [hc.1] at hnv
        rw [hnv] at hw
        exact Bool.noConfusion hw
      · rfl
    · next =>
      exact ih (fun f hf => hes f (by simp [hf])) s hD hH w hw

theorem relaxDijkstra_PQInv (g : Graph) (hWF : g.WF) (u : ℕ) (hu : u < g.nodeCount) :
    ∀ (es : List Edge), (∀ e ∈ es, e ∈ g.getAdjacencyList u) →
      ∀ s : DijkstraState, s.distances.length = g.nodeCount →
        PQInv g s.distances s.pq →
        PQInv g (relaxDijkstra g u es s).distances (relaxDijkstra g u es s).pq := by
  intro es
  induction es with
  | nil => intro _ s _ h; exact h
  | cons e rest ih =>
    intro hes s hlen hPQ
    rw [relaxDijkstra_cons]
    split
    · next hlt =>
      refine ih (fun f hf => hes f (by simp [hf])) _ ?_ ?_
      · simpa using hlen
      · intro q hq
        rcases List.mem_append.mp hq with hq | hq
        · obtain ⟨h1, h2⟩ := hPQ q hq
          exact ⟨h1, le_trans (dget_set_le _ _ _ _ (le_of_lt hlt)) h2⟩
        · simp at hq
          subst hq
          have hd : e.destination < g.nodeCount := hWF.2 u hu e (hes e (by simp))
          refine ⟨hd, ?_⟩
          show dget (s.distances.set e.destination
            (dget s.distances u + (e.weight : Dist))) e.destination ≤
            dget s.distances u + (e.weight : Dist)
          rw [dget_set, if_pos ⟨rfl, by rw [hlen]; exact hd⟩]
    · next =>
      exact ih (fun f hf => hes f (by simp [hf])) s hlen hPQ

theorem relaxDijkstra_BInv (g : Graph) (u : ℕ) :
    ∀ (es : List Edge), ∀ s : DijkstraState,
      BInv g s.distances s.visited s.pq →
      BInv g (relaxDijkstra g u es s).distances s.visited
        (relaxDijkstra g u es s).pq := by
  intro es
  induction es with
  | nil => intro s h; exact h
  | cons e rest ih =>
    intro s hB
    rw [relaxDijkstra_cons]
    split
    · next hlt =>
      have hB' : BInv g
          (s.distances.set e.destination
            (dget s.distances u + (e.weight : Dist))) s.visited
          (s.pq ++ [⟨e.destination, dget s.distances u + (e.weight : Dist),
            dget s.distances u + (e.weight : Dist)⟩]) := by
        intro v hv hne hunv
        rw [dget_set] at hne ⊢
        by_cases hcond : e.destination = v ∧ v < s.distances.length
        · rw [if_pos hcond]
          exact ⟨⟨e.destination, dget s.distances u + (e.weight : Dist),
            dget s.distances u + (e.weight : Dist)⟩,
            List.mem_append_right _ (by simp), hcond.1, rfl⟩
        · rw [if_neg hcond]
          rw [if_neg hcond] at hne
          obtain ⟨q, hq, h1, h2⟩ := hB v hv hne hunv
          exact ⟨q, List.mem_append_left _ hq, h1, h2⟩
      exact ih _ hB'
    · next =>
      exact ih s hB

/-- The popped minimum is a lower bound of `dget d v + c` for every walk
ending at an unvisited node: walking from the first unvisited node on the
walk costs at least the minimum pending score. -/
theorem crux_aux (g : Graph) (hNN : g.Nonneg) (d : List Dist) (visited : List Bool)
    (pq : List PQElement) (m : PQElement)
    (hmin : ∀ x ∈ pq, m.fScore ≤ x.fScore)
    (hB : BInv g d visited pq) (hA : AInv g d visited) :
    ∀ {v : ℕ} {l : List ℕ} {t : ℕ} {c : ℚ}, Walk g v l t c →
      vget visited t = false → m.fScore ≤ dget d v + (c : Dist) := by
  intro v l t c hw
  induction hw with
  | nil x hx =>
    intro hunv
    by_cases hne : dget d x = ⊤
    · rw [hne, WithTop.top_add]
      exact le_top
    · obtain ⟨q, hq, h1, h2⟩ := hB x hx hne hunv
      calc m.fScore ≤ dget d x := by rw [← h2]; exact hmin q hq
        _ ≤ dget d x + ((0 : ℚ) : Dist) := by simp
  | cons u e l t c hu he hw ih =>
    intro hunv
    by_cases hvis : vget visited u = true
    · have hA' := hA u hvis e he
      calc m.fScore ≤ dget d e.destination + (c : Dist) := ih hunv
        _ ≤ (dget d u + (e.weight : Dist)) + (c : Dist) := add_le_add_right hA' _
        _ = dget d u + ((e.weight + c : ℚ) : Dist) := by
            rw [WithTop.coe_add, add_assoc]
    · have hunvu : vget visited u = false := by
        cases hb : vget visited u
        · rfl
        · exact absurd hb hvis
      by_cases hne : dget d u = ⊤
      · rw [hne, WithTop.top_add]
        exact le_top
      · obtain ⟨q, hq, h1, h2⟩ := hB u hu hne hunvu
        have h0 : (0 : ℚ) ≤ e.weight + c :=
          add_nonneg (hNN u hu e he) (walk_weight_nonneg hNN hw)
        calc m.fScore ≤ dget d u := by rw [← h2]; exact hmin q hq
          _ ≤ dget d u + ((e.weight + c : ℚ) : Dist) :=
            le_add_of_nonneg_right (by exact_mod_cast h0)

/-! ### Loop-step equations and termination measure -/

theorem dijkstraLoop_succ_none (g : Graph) (destination fuel : ℕ)
    (s : DijkstraState) (h : popMin s.pq = none) :
    dijkstraLoop g destination (fuel + 1) s = s := by
  rw [dijkstraLoop, h]

theorem dijkstraLoop_succ_skip (g : Graph) (destination fuel : ℕ)
    (s : DijkstraState) (current : PQElement) (pq' : List PQElement)
    (h : popMin s.pq = some (current, pq'))
    (hv : vget s.visited current.nodeId = true) :
    dijkstraLoop g destination (fuel + 1) s =
      dijkstraLoop g destination fuel
        ⟨s.distances, s.predecessors, s.visited, pq'⟩ := by
  rw [dijkstraLoop, h]
  exact if_pos hv

theorem dijkstraLoop_succ_break (g : Graph) (destination fuel : ℕ)
    (s : DijkstraState) (current : PQElement) (pq' : List PQElement)
    (h : popMin s.pq = some (current, pq'))
    (hv : ¬ vget s.visited current.nodeId = true)
    (hd : current.nodeId = destination) :
    dijkstraLoop g destination (fuel + 1) s =
      ⟨s.distances, s.predecessors, s.visited.set current.nodeId true, pq'⟩ := by
  rw [dijkstraLoop, h]
  exact (if_neg hv).trans (if_pos hd)

theorem dijkstraLoop_succ_go (g : Graph) (destination fuel : ℕ)
    (s : DijkstraState) (current : PQElement) (pq' : List PQElement)
    (h : popMin s.pq = some (current, pq'))
    (hv : ¬ vget s.visited current.nodeId = true)
    (hd : ¬ current.nodeId = destination) :
    dijkstraLoop g destination (fuel + 1) s =
      dijkstraLoop g destination fuel
        (relaxDijkstra g current.nodeId (g.getAdjacencyList current.nodeId)
          ⟨s.distances, s.predecessors,
           s.visited.set current.nodeId true, pq'⟩) := by
  rw [dijkstraLoop, h]
  exact (if_neg hv).trans (if_neg hd)

/-- Total degree of a set of nodes, the potential paid when a node is
expanded. -/
def degSum (g : Graph) (l : List ℕ) : ℕ :=
  (l.map (fun u => (g.getAdjacencyList u).length)).sum

/-- The in-range nodes not yet marked visited. -/
def unvisitedList (g : Graph) (V : List Bool) : List ℕ :=
  (List.range g.nodeCount).filter (fun u => ! vget V u)

theorem filter_sum_flip (f : ℕ → ℕ) (p p' : ℕ → Bool) (u : ℕ)
    (hp : ∀ x, x ≠ u → p' x = p x) (hpu : p u = true) (hpu' : p' u = false) :
    ∀ l : List ℕ, l.Nodup → u ∈ l →
      ((l.filter p).map f).sum = ((l.filter p').map f).sum + f u := by
  intro l
  induction l with
  | nil => intro _ h; simp at h
  | cons a rest ih =>
    intro hnd hmem
    have hnd' := (List.nodup_cons.mp hnd).2
    rcases List.mem_cons.mp hmem with rfl | hmem'
    · have hur : u ∉ rest := (List.nodup_cons.mp hnd).1
      have hragree : rest.filter p' = rest.filter p :=
        List.filter_congr (fun x hx => hp x (fun h => hur (h ▸ hx)))
      rw [List.filter_cons, List.filter_cons, if_pos hpu, if_neg (by simp [hpu'])]
      simp only [List.map_cons, List.sum_cons]
      rw [hragree]
      omega
    · have hane : a ≠ u := fun h => (List.nodup_cons.mp hnd).1 (h.symm ▸ hmem')
      cases hpa : p a with
      | true =>
        have hpa' : p' a = true := by rw [hp a hane, hpa]
        rw [List.filter_cons, List.filter_cons, if_pos hpa, if_pos hpa']
        simp only [List.map_cons, List.sum_cons]
        rw [ih hnd' hmem']
        omega
      | false =>
        have hpa' : p' a = false := by rw [hp a hane, hpa]
        rw [List.filter_cons, List.filter_cons,
          if_neg (by simp [hpa]), if_neg (by simp [hpa'])]
        exact ih hnd' hmem'

theorem degSum_unvisited_set (g : Graph) (V : List Bool) (u : ℕ)
    (hu : u < g.nodeCount) (hlen : V.length = g.nodeCount)
    (hunv : vget V u = false) :
    degSum g (unvisitedList g V) =
      degSum g (unvisitedList g (V.set u true)) +
        (g.getAdjacencyList u).length := by
  unfold degSum unvisitedList
  refine filter_sum_flip (fun v => (g.getAdjacencyList v).length)
    (fun x => ! vget V x) (fun x => ! vget (V.set u true) x) u ?_ ?_ ?_
    (List.range g.nodeCount) (List.nodup_range _) (List.mem_range.mpr hu)
  · intro x hx
    show (! vget (V.set u true) x) = (! vget V x)
    congr 1
    rw [vget_set, if_neg (fun h => hx h.1.symm)]
  · show (! vget V u) = true
    rw [hunv]
    rfl
  · show (! vget (V.set u true) u) = false
    rw [vget_set, if_pos ⟨rfl, by rw [hlen]; exact hu⟩]
    rfl

theorem unvisitedList_replicate (g : Graph) :
    unvisitedList g (List.replicate g.nodeCount false) =
      List.range g.nodeCount := by
  unfold unvisitedList
  apply List.filter_eq_self.mpr
  intro a ha
  rw [vget_replicate]
  rfl

theorem degSum_range (L : List (List Edge)) :
    ((List.range L.length).map (fun u => (L.getD u []).length)).sum =
      (L.map List.length).sum := by
  induction L with
  | nil => rfl
  | cons a L ih =>
    rw [List.length_cons, List.range_succ_eq_map]
    simp only [List.map_cons, List.sum_cons, List.map_map]
    have hcongr : (List.range L.length).map
        ((fun u => ((a :: L).getD u []).length) ∘ Nat.succ) =
        (List.range L.length).map (fun u => (L.getD u []).length) :=
      List.map_congr_left (fun x _ => rfl)
    rw [hcongr, ih]
    rfl

theorem degSum_full (g : Graph) (hWF : g.WF) :
    degSum g (List.range g.nodeCount) = totalAdjSize g := by
  unfold degSum totalAdjSize Graph.getAdjacencyList
  rw [← hWF.1]
  exact degSum_range g.adj

/-- With an empty queue the state is a global fixed point: every in-range
node is visited or holds `⊤`, so every edge is fully relaxed and walk
weights bound the destination entry. -/
theorem dij_empty_bound (g : Graph) (source destination : ℕ)
    (d : List Dist) (visited : List Bool)
    (hB : BInv g d visited [])
    (hA : AInv g d visited)
    (hsrc0 : dget d source ≤ 0) :
    ∀ l c, Walk g source l destination c → dget d destination ≤ (c : Dist) := by
  intro l c hw
  have hfp : ∀ u, u < g.nodeCount → ∀ e ∈ g.getAdjacencyList u,
      dget d e.destination ≤ dget d u + (e.weight : Dist) := by
    intro u hu e he
    cases hv : vget visited u with
    | true => exact hA u hv e he
    | false =>
      by_cases hne : dget d u = ⊤
      · rw [hne, WithTop.top_add]
        exact le_top
      · obtain ⟨q, hq, _, _⟩ := hB u hu hne hv
        exact absurd hq (List.not_mem_nil q)
  have := fp_walk_aux g d hfp hw 0 hsrc0
  simpa using this

/-- Master loop invariant: given the Dijkstra invariants and enough fuel for
the pending entries plus the unvisited degrees, the loop result satisfies
`DInv` and its destination entry is a lower bound of every walk weight. -/
theorem dijkstraLoop_main (g : Graph) (hWF : g.WF) (hNN : g.Nonneg)
    (source destination : ℕ) :
    ∀ (fuel : ℕ) (s : DijkstraState),
      s.distances.length = g.nodeCount →
      s.visited.length = g.nodeCount →
      DInv g source s.distances →
      PQInv g s.distances s.pq →
      BInv g s.distances s.visited s.pq →
      AInv g s.distances s.visited →
      HInv g source s.distances s.visited →
      dget s.distances source ≤ 0 →
      s.pq.length + degSum g (unvisitedList g s.visited) ≤ fuel →
      DInv g source (dijkstraLoop g destination fuel s).distances ∧
      ∀ l c, Walk g source l destination c →
        dget (dijkstraLoop g destination fuel s).distances destination ≤ (c : Dist) := by
  intro fuel
  induction fuel with
  | zero =>
    intro s h1 h2 hD hPQ hB hA hH hs0 hbud
    have hpq : s.pq = [] :=
      List.length_eq_zero.mp (Nat.le_zero.mp (le_trans (Nat.le_add_right _ _) hbud))
    exact ⟨hD, dij_empty_bound g source destination s.distances s.visited
      (hpq ▸ hB) hA hs0⟩
  | succ fuel ih =>
    intro s h1 h2 hD hPQ hB hA hH hs0 hbud
    cases hpop : popMin s.pq with
    | none =>
      rw [dijkstraLoop_succ_none g destination fuel s hpop]
      have hpq : s.pq = [] := popMin_eq_none _ hpop
      exact ⟨hD, dij_empty_bound g source destination s.distances s.visited
        (hpq ▸ hB) hA hs0⟩
    | some pr =>
      obtain ⟨current, pq'⟩ := pr
      have hcur_mem := popMin_mem _ _ _ hpop
      have hmin := popMin_min _ _ _ hpop
      have hplen := popMin_length _ _ _ hpop
      obtain ⟨hcn, hcd⟩ := hPQ current hcur_mem
      by_cases hv : vget s.visited current.nodeId = true
      · rw [dijkstraLoop_succ_skip g destination fuel s current pq' hpop hv]
        refine ih ⟨s.distances, s.predecessors, s.visited, pq'⟩
          h1 h2 hD ?_ ?_ hA hH hs0 ?_
        · intro q hq
          exact hPQ q (popMin_mem_of_rest _ _ _ hpop q hq)
        · intro v hvn hne hunv
          obtain ⟨q, hq, hq1, hq2⟩ := hB v hvn hne hunv
          rcases popMin_mem_cases _ _ _ hpop q hq with rfl | hq'
          · exfalso
            rw [hq1] at hv
            rw [hunv] at hv
            exact Bool.noConfusion hv
          · exact ⟨q, hq', hq1, hq2⟩
        · show pq'.length + degSum g (unvisitedList g s.visited) ≤ fuel
          omega
      · have hunvc : vget s.visited current.nodeId = false := by
          cases hb : vget s.visited current.nodeId
          · rfl
          · exact absurd hb hv
        by_cases hdest : current.nodeId = destination
        · rw [dijkstraLoop_succ_break g destination fuel s current pq' hpop hv hdest]
          refine ⟨hD, ?_⟩
          intro l c hw
          have hunvd : vget s.visited destination = false := by
            rw [← hdest]
            exact hunvc
          have hcrux := crux_aux g hNN s.distances s.visited s.pq current hmin hB hA
            hw hunvd
          show dget s.distances destination ≤ (c : Dist)
          calc dget s.distances destination
              = dget s.distances current.nodeId := by rw [hdest]
            _ ≤ current.fScore := hcd
            _ ≤ dget s.distances source + (c : Dist) := hcrux
            _ ≤ 0 + (c : Dist) := add_le_add_right hs0 _
            _ = (c : Dist) := zero_add _
        · rw [dijkstraLoop_succ_go g destination fuel s current pq' hpop hv hdest]
          have hH1 : HInv g source s.distances
              (s.visited.set current.nodeId true) := by
            intro w hwv l' c' hwalk
            have hwv' : vget (s.visited.set current.nodeId true) w = true := hwv
            rw [vget_set] at hwv'
            by_cases hcond : current.nodeId = w ∧ w < s.visited.length
            · have hwunv : vget s.visited w = false := by
                rw [← hcond.1]
                exact hunvc
              have hcrux := crux_aux g hNN s.distances s.visited s.pq current hmin hB hA
                hwalk hwunv
              calc dget s.distances w
                  = dget s.distances current.nodeId := by rw [hcond.1]
                _ ≤ current.fScore := hcd
                _ ≤ dget s.distances source + (c' : Dist) := hcrux
                _ ≤ 0 + (c' : Dist) := add_le_add_right hs0 _
                _ = (c' : Dist) := zero_add _
            · rw [if_neg hcond] at hwv'
              exact hH w hwv' l' c' hwalk
          have hB1 : BInv g s.distances
              (s.visited.set current.nodeId true) pq' := by
            intro v hvn hne hunv
            rw [vget_set] at hunv
            by_cases hcond : current.nodeId = v ∧ v < s.visited.length
            · rw [if_pos hcond] at hunv
              exact Bool.noConfusion hunv
            · rw [if_neg hcond] at hunv
              obtain ⟨q, hq, hq1, hq2⟩ := hB v hvn hne hunv
              rcases popMin_mem_cases _ _ _ hpop q hq with rfl | hq'
              · exfalso
                exact hcond ⟨hq1, by rw [h2]; exact hvn⟩
              · exact ⟨q, hq', hq1, hq2⟩
          have hPQ1 : PQInv g s.distances pq' := fun q hq =>
            hPQ q (popMin_mem_of_rest _ _ _ hpop q hq)
          have hvc1 : vget (s.visited.set current.nodeId true)
              current.nodeId = true := by
            rw [vget_set, if_pos ⟨rfl, by rw [h2]; exact hcn⟩]
          have hUnch := relaxDijkstra_visited_unchanged g hWF source current.nodeId
            (g.getAdjacencyList current.nodeId) (fun e he => he)
            ⟨s.distances, s.predecessors,
             s.visited.set current.nodeId true, pq'⟩ hD hH1
          refine ih (relaxDijkstra g current.nodeId
            (g.getAdjacencyList current.nodeId)
            ⟨s.distances, s.predecessors,
             s.visited.set current.nodeId true, pq'⟩) ?_ ?_ ?_ ?_ ?_ ?_ ?_ ?_ ?_
          · rw [relaxDijkstra_dlength]
            exact h1
          · rw [relaxDijkstra_visited_list]
            show (s.visited.set current.nodeId true).length = g.nodeCount
            rw [List.length_set]
            exact h2
          · exact relaxDijkstra_DInv g hWF source current.nodeId
              (g.getAdjacencyList current.nodeId) (fun e he => he) _ hD
          · exact relaxDijkstra_PQInv g hWF current.nodeId hcn
              (g.getAdjacencyList current.nodeId) (fun e he => he) _ h1 hPQ1
          · rw [relaxDijkstra_visited_list]
            exact relaxDijkstra_BInv g current.nodeId
              (g.getAdjacencyList current.nodeId)
              ⟨s.distances, s.predecessors,
               s.visited.set current.nodeId true, pq'⟩ hB1
          · rw [relaxDijkstra_visited_list]
            intro w hwv e he
            by_cases hwc : w = current.nodeId
            · subst hwc
              have hde : e.destination < s.distances.length := by
                rw [h1]
                exact hWF.2 current.nodeId hcn e he
              have hle := relaxDijkstra_le_edge g current.nodeId
                (g.getAdjacencyList current.nodeId)
                ⟨s.distances, s.predecessors,
                 s.visited.set current.nodeId true, pq'⟩
                e he hde
              have hu2 := hUnch current.nodeId hvc1
              rw [hu2]
              exact hle
            · have hwv' : vget (s.visited.set current.nodeId true) w = true := hwv
              rw [vget_set] at hwv'
              have hwsv : vget s.visited w = true := by
                by_cases hcond : current.nodeId = w ∧ w < s.visited.length
                · exact absurd hcond.1.symm hwc
                · rw [if_neg hcond] at hwv'
                  exact hwv'
              have hold := hA w hwsv e he
              have huw := hUnch w hwv
              calc dget (relaxDijkstra g current.nodeId
                    (g.getAdjacencyList current.nodeId)
                    ⟨s.distances, s.predecessors,
                     s.visited.set current.nodeId true, pq'⟩).distances e.destination
                  ≤ dget s.distances e.destination :=
                    relaxDijkstra_dget_le g current.nodeId _ _ e.destination
                _ ≤ dget s.distances w + (e.weight : Dist) := hold
                _ = dget (relaxDijkstra g current.nodeId
                    (g.getAdjacencyList current.nodeId)
                    ⟨s.distances, s.predecessors,
                     s.visited.set current.nodeId true, pq'⟩).distances w +
                    (e.weight : Dist) := by rw [huw]
          · rw [relaxDijkstra_visited_list]
            refine HInv_mono g source s.distances _ _ ?_ hH1
            intro v
            exact relaxDijkstra_dget_le g current.nodeId _ _ v
          · exact le_trans (relaxDijkstra_dget_le g current.nodeId _ _ source) hs0
          · have hq2 : (relaxDijkstra g current.nodeId
                (g.getAdjacencyList current.nodeId)
                ⟨s.distances, s.predecessors,
                 s.visited.set current.nodeId true, pq'⟩).pq.length ≤
                pq'.length + (g.getAdjacencyList current.nodeId).length :=
              relaxDijkstra_pq_length g current.nodeId
                (g.getAdjacencyList current.nodeId)
                ⟨s.distances, s.predecessors,
                 s.visited.set current.nodeId true, pq'⟩
            have hds := degSum_unvisited_set g s.visited current.nodeId hcn h2 hunvc
            rw [relaxDijkstra_visited_list]
            show (relaxDijkstra g current.nodeId
                (g.getAdjacencyList current.nodeId)
                ⟨s.distances, s.predecessors,
                 s.visited.set current.nodeId true, pq'⟩).pq.length +
              degSum g (unvisitedList g (s.visited.set current.nodeId true)) ≤ fuel
            omega

/-! ### The initial Dijkstra state satisfies the invariants -/

theorem dijkstraInit_dget (g : Graph) (source : ℕ) (hs : source < g.nodeCount)
    (v : ℕ) :
    dget (dijkstraInit g source).distances v =
      if source = v then (0 : Dist) else ⊤ := by
  show dget ((List.replicate g.nodeCount (⊤ : Dist)).set source 0) v = _
  rw [dget_set]
  by_cases hc : source = v
  · rw [if_pos ⟨hc, by rw [List.length_replicate, ← hc]; exact hs⟩, if_pos hc]
  · rw [if_neg (fun h => hc h.1), if_neg hc]
    exact dget_replicate _ _

theorem dijkstraInit_main (g : Graph) (hWF : g.WF) (hNN : g.Nonneg)
    (source destination : ℕ) (hs : source < g.nodeCount) :
    DInv g source
      (dijkstraLoop g destination (1 + totalAdjSize g)
        (dijkstraInit g source)).distances ∧
    ∀ l c, Walk g source l destination c →
      dget (dijkstraLoop g destination (1 + totalAdjSize g)
        (dijkstraInit g source)).distances destination ≤ (c : Dist) := by
  apply dijkstraLoop_main g hWF hNN source destination
  · show ((List.replicate g.nodeCount (⊤ : Dist)).set source 0).length = g.nodeCount
    rw [List.length_set, List.length_replicate]
  · exact List.length_replicate _ _
  · intro v
    rw [dijkstraInit_dget g source hs v]
    by_cases hc : source = v
    · rw [if_pos hc]
      right
      refine ⟨[], 0, ?_, by simp⟩
      subst hc
      exact Walk.nil source hs
    · rw [if_neg hc]
      left
      rfl
  · intro q hq
    simp [dijkstraInit] at hq
    subst hq
    refine ⟨hs, ?_⟩
    show dget (dijkstraInit g source).distances source ≤ (0 : Dist)
    rw [dijkstraInit_dget g source hs source, if_pos rfl]
  · intro v hv hne hunv
    rw [dijkstraInit_dget g source hs v] at hne
    by_cases hc : source = v
    · refine ⟨⟨source, 0, 0⟩, List.mem_singleton.mpr rfl, hc, ?_⟩
      show (0 : Dist) = dget (dijkstraInit g source).distances v
      rw [dijkstraInit_dget g source hs v, if_pos hc]
    · rw [if_neg hc] at hne
      exact absurd rfl hne
  · intro u hu
    have hu' : vget (List.replicate g.nodeCount false) u = true := hu
    rw [vget_replicate] at hu'
    exact Bool.noConfusion hu'
  · intro w hw
    have hw' : vget (List.replicate g.nodeCount false) w = true := hw
    rw [vget_replicate] at hw'
    exact Bool.noConfusion hw'
  · show dget (dijkstraInit g source).distances source ≤ (0 : Dist)
    rw [dijkstraInit_dget g source hs source, if_pos rfl]
  · show 1 + degSum g (unvisitedList g (List.replicate g.nodeCount false)) ≤
      1 + totalAdjSize g
    rw [unvisitedList_replicate, degSum_full g hWF]

/-- The sequential Dijkstra loop's final destination entry satisfies the
shortest-distance characterization. -/
theorem dijkstra_oracleDist (g : Graph) (hWF : g.WF) (hNN : g.Nonneg)
    (source destination : ℕ) (hs : source < g.nodeCount) :
    IsOracleDist g source destination
      (dget (dijkstraLoop g destination (1 + totalAdjSize g)
        (dijkstraInit g source)).distances destination) := by
  obtain ⟨hD, hbound⟩ := dijkstraInit_main g hWF hNN source destination hs
  exact ⟨hbound, hD destination⟩

/-- At most one value satisfies the shortest-distance characterization, so
the engine and the sequential oracle, both proved to satisfy it, agree. -/
theorem shortestCharacterization_unique (g : Graph) (s t : ℕ) (d₁ d₂ : Dist)
    (h₁ : IsOracleDist g s t d₁) (h₂ : IsOracleDist g s t d₂) : d₁ = d₂ := by
  rcases h₁.2 with rfl | ⟨l, c, hw, rfl⟩
  · rcases h₂.2 with rfl | ⟨l', c', hw', rfl⟩
    · rfl
    · exact (top_le_iff.mp (h₁.1 l' c' hw')).symm
  · rcases h₂.2 with rfl | ⟨l', c', hw', rfl⟩
    · exact top_le_iff.mp (h₂.1 l c hw)
    · exact le_antisymm (h₁.1 l' c' hw') (h₂.1 l c hw)

/-- `sequentialDijkstra` reports the loop's final destination entry as
`totalDistance` (also in the not-found branch, where that entry is `⊤`) and
sets `found` to false exactly when the entry is `⊤`. -/
theorem sequentialDijkstra_spec (g : Graph) (source destination : ℕ) :
    (sequentialDijkstra g source destination).totalDistance =
      dget (dijkstraLoop g destination (1 + totalAdjSize g)
        (dijkstraInit g source)).distances destination ∧
    ((sequentialDijkstra g source destination).found = false ↔
      dget (dijkstraLoop g destination (1 + totalAdjSize g)
        (dijkstraInit g source)).distances destination = ⊤) := by
  by_cases h : dget (dijkstraLoop g destination (1 + totalAdjSize g)
      (dijkstraInit g source)).distances destination = ⊤
  · have he : sequentialDijkstra g source destination = ⟨[], ⊤, false, 0⟩ := by
      simp only [sequentialDijkstra]
      rw [if_neg (not_not_intro h)]
    rw [he, h]
    exact ⟨rfl, by simp⟩
  · have he : sequentialDijkstra g source destination =
        ⟨(buildPath (dijkstraLoop g destination (1 + totalAdjSize g)
            (dijkstraInit g source)).predecessors (g.nodeCount + 1)
            (destination : Int)).reverse,
         dget (dijkstraLoop g destination (1 + totalAdjSize g)
           (dijkstraInit g source)).distances destination, true, 0⟩ := by
      simp only [sequentialDijkstra]
      rw [if_pos h]
    rw [he]
    exact ⟨rfl, by simp [h]⟩

/-- **C1**: for every process count `P ≥ 1`, well-formed graph with
non-negative weights and in-range source and destination, the distributed
BSP engine's final distance entry for the destination equals the
`totalDistance` computed by the repository's sequential Dijkstra oracle
(`sequentialDijkstra`, the second translation unit of graph_generator.cpp),
and the oracle reports `found = false` exactly when that common value is
`⊤`, i.e. when no path exists. -/
theorem engine_matches_sequential_oracle (g : Graph) (P source destination : ℕ)
    (hWF : g.WF) (hNN : g.Nonneg) (hP : 1 ≤ P) (hs : source < g.nodeCount)
    (hd : destination < g.nodeCount) :
    dget (runEngine g P source).1.distances destination =
      (sequentialDijkstra g source destination).totalDistance ∧
    ((sequentialDijkstra g source destination).found = false ↔
      dget (runEngine g P source).1.distances destination = ⊤) := by
  have hE := engine_shortest_characterization g P source destination hWF hNN hP hs hd
  have hO := dijkstra_oracleDist g hWF hNN source destination hs
  have hspec := sequentialDijkstra_spec g source destination
  have heq : dget (runEngine g P source).1.distances destination =
      dget (dijkstraLoop g destination (1 + totalAdjSize g)
        (dijkstraInit g source)).distances destination :=
    shortestCharacterization_unique g source destination _ _ hE hO
  refine ⟨?_, ?_⟩
  · rw [hspec.1, heq]
  · rw [hspec.2, heq]

/-- Witness for C1 on the two-component graph: with `P = 2`, source `0` and
destination `3` both algorithms find no path. -/
theorem engine_matches_sequential_oracle_witness :
    dget (runEngine gScenB 2 0).1.distances 3 =
      (sequentialDijkstra gScenB 0 3).totalDistance ∧
    ((sequentialDijkstra gScenB 0 3).found = false ↔
      dget (runEngine gScenB 2 0).1.distances 3 = ⊤) :=
  engine_matches_sequential_oracle gScenB 2 0 3 (by decide) (by decide)
    (by decide) (by decide) (by decide)

end DistSSSP
